import Mathlib

/-!
Verification of the envil environment-validation engine and its CLI
dotenv codec / type-inference / source-generation pipeline.

The TypeScript sources are shallowly embedded: strings are `List Char`
(`Str`), JS objects with string keys are association lists in property
order, JS `Set` membership is list membership, thrown errors are
`Except` error values, and `Array.prototype.sort` (a stable sort) is
modelled by a stable insertion sort.  Every definition follows the
corresponding function of the repository source; the file at each
definition is named in its doc comment.
-/

namespace Envil

/-- Strings are modelled as lists of characters. -/
abbrev Str := List Char

/-- The JS whitespace class (regex backslash-s and String.prototype.trim):
tab, LF, VT, FF, CR, space, NBSP, Ogham space mark, the Unicode space
separators U+2000..U+200A, LS, PS, NNBSP, MMSP, ideographic space, BOM. -/
def jsWhitespace (c : Char) : Bool :=
  let n := c.toNat
  n = 0x20 ∨ n = 0x9 ∨ n = 0xa ∨ n = 0xb ∨ n = 0xc ∨ n = 0xd ∨
  n = 0xa0 ∨ n = 0x1680 ∨ (0x2000 ≤ n ∧ n ≤ 0x200a) ∨
  n = 0x2028 ∨ n = 0x2029 ∨ n = 0x202f ∨ n = 0x205f ∨
  n = 0x3000 ∨ n = 0xfeff

/-- Model of String.prototype.trimStart. -/
def trimLeft (s : Str) : Str := s.dropWhile jsWhitespace

/-- Model of String.prototype.trimEnd. -/
def trimRight (s : Str) : Str := (trimLeft s.reverse).reverse

/-- Model of String.prototype.trim. -/
def trim (s : Str) : Str := trimRight (trimLeft s)

/-- Stable insertion of one element into a list that is already sorted by
the boolean comparator `le`: `x` is placed after every earlier element
that compares less-or-equal to it.  Together with `stableSortBy` this
models the (stable) JS `Array.prototype.sort`. -/
def stableInsert (le : α → α → Bool) (x : α) : List α → List α
  | [] => [x]
  | y :: ys => if le x y ∧ ¬ le y x then x :: y :: ys else y :: stableInsert le x ys

/-- Stable sort modelling JS `Array.prototype.sort` with comparator `le`
("a before or tied with b"). -/
def stableSortBy (le : α → α → Bool) (l : List α) : List α :=
  l.foldl (fun acc x => stableInsert le x acc) []

/-- The three variable buckets (src/cli/types.ts, `BUCKETS`). -/
inductive Bucket where
  | server | client | shared
deriving DecidableEq, Repr

/-- The fixed enumeration of schema kinds (src/cli/types.ts, `SCHEMA_KINDS`). -/
inductive SchemaKind where
  | requiredString | boolean | integer | number | port | url
  | postgresUrl | redisUrl | mongoUrl | mysqlUrl
  | commaSeparated | commaSeparatedNumbers | commaSeparatedUrls
  | json | stringEnum
deriving DecidableEq, Repr

/-- Spelled-out name of a bucket, as it appears in source text. -/
def bucketName : Bucket → Str
  | .server => "server".data
  | .client => "client".data
  | .shared => "shared".data

/-- Spelled-out identifier of a schema kind, as emitted by the generator. -/
def kindName : SchemaKind → Str
  | .requiredString => "requiredString".data
  | .boolean => "boolean".data
  | .integer => "integer".data
  | .number => "number".data
  | .port => "port".data
  | .url => "url".data
  | .postgresUrl => "postgresUrl".data
  | .redisUrl => "redisUrl".data
  | .mongoUrl => "mongoUrl".data
  | .mysqlUrl => "mysqlUrl".data
  | .commaSeparated => "commaSeparated".data
  | .commaSeparatedNumbers => "commaSeparatedNumbers".data
  | .commaSeparatedUrls => "commaSeparatedUrls".data
  | .json => "json".data
  | .stringEnum => "stringEnum".data

/-- One hex digit. -/
def hexDigit (n : Nat) : Char :=
  if n < 10 then Char.ofNat (48 + n) else Char.ofNat (87 + n)

/-- The double-quote character. -/
def dq : Char := Char.ofNat 34

/-- The single-quote character. -/
def sq : Char := Char.ofNat 39

/-- The backslash character. -/
def bsl : Char := Char.ofNat 92

/-- JSON.stringify escaping of a single character inside a double-quoted
JSON string literal. -/
def jsonEscapeChar (c : Char) : Str :=
  if c = dq then [bsl, dq]
  else if c = bsl then [bsl, bsl]
  else if c = '\n' then [bsl, 'n']
  else if c = '\r' then [bsl, 'r']
  else if c = '\t' then [bsl, 't']
  else if c = '\x08' then [bsl, 'b']
  else if c = '\x0c' then [bsl, 'f']
  else if c.toNat < 0x20 then
    [bsl, 'u', '0', '0', hexDigit (c.toNat / 16), hexDigit (c.toNat % 16)]
  else [c]

/-- JSON.stringify of a string value: double quotes around the escaped
character sequence. -/
def jsonQuote (s : Str) : Str :=
  dq :: (s.flatMap jsonEscapeChar) ++ [dq]

namespace Gen

/-! ## Source generator (src/cli/generate-env-ts.ts) -/
/-- The universe of default values the inference pipeline hands to the
generator (TS `unknown`), restricted to the scalar literals the claims
need. -/
inductive CodeVal where
  | str (s : Str)
  | int (n : Int)
  | bool (b : Bool)
  | nullV
  | undef
deriving DecidableEq

/-- Model of `toCodeLiteral` (src/cli/literals.ts): JSON.stringify for
strings, JS String() for numbers and booleans, the fixed spellings for
null and undefined. -/
def toCodeLiteral : CodeVal → Str
  | .str s => jsonQuote s
  | .int n => (toString n).data
  | .bool b => if b then "true".data else "false".data
  | .nullV => "null".data
  | .undef => "undefined".data

/-- The wrapper flags of one inferred variable, as consumed by
`renderSchemaExpression` (src/cli/generate-env-ts.ts lines 86-118). -/
structure Wrappers where
  optional : Bool
  hasDefault : Bool
  defaultValue : CodeVal
  redacted : Bool
  stringEnumValues : Option (List Str)
deriving DecidableEq

/-- The record returned by `renderSchemaExpression`. -/
structure Rendered where
  expression : Str
  helpers : List Str
  needsSchemaImport : Bool
deriving DecidableEq

/-- Set<string> insertion, modelled on a duplicate-free list in insertion
order. -/
def setAdd (l : List Str) (x : Str) : List Str :=
  if x ∈ l then l else l ++ [x]

/-- `SPECIAL_EXPRESSIONS` (src/cli/generate-env-ts.ts lines 120-123). -/
def specialExpression : SchemaKind → Option Str
  | .json => some "json(Schema.Unknown)".data
  | .stringEnum => some "stringEnum([])".data
  | _ => none

/-- The base (unwrapped) kind expression: the first assignment of
`renderSchemaExpression` — the enum literal-list call when the kind is
stringEnum and enum values are attached (any array, even empty, is
truthy in JS), else the special expression for json/stringEnum, else
the kind identifier itself. -/
def baseKindExpression (kind : SchemaKind) (vals : Option (List Str)) : Str :=
  match kind, vals with
  | .stringEnum, some vs =>
      "stringEnum([".data ++ List.intercalate ", ".data (vs.map jsonQuote) ++ "])".data
  | _, _ => (specialExpression kind).getD (kindName kind)

/-- Model of `renderSchemaExpression` (src/cli/generate-env-ts.ts lines
86-118): wraps the base kind expression in optional (only when no
default), then withDefault, then redacted, collecting helper imports. -/
def renderSchemaExpression (kind : SchemaKind) (w : Wrappers) : Rendered :=
  let base := baseKindExpression kind w.stringEnumValues
  let helpers0 := [kindName kind]
  let needsSchemaImport := kind = .json
  let e1 := if w.optional ∧ ¬ w.hasDefault then "optional(".data ++ base ++ ")".data else base
  let h1 := if w.optional ∧ ¬ w.hasDefault then setAdd helpers0 "optional".data else helpers0
  let e2 :=
    if w.hasDefault then
      "withDefault(".data ++ e1 ++ ", ".data ++ toCodeLiteral w.defaultValue ++ ")".data
    else e1
  let h2 := if w.hasDefault then setAdd h1 "withDefault".data else h1
  let e3 := if w.redacted then "redacted(".data ++ e2 ++ ")".data else e2
  let h3 := if w.redacted then setAdd h2 "redacted".data else h2
  { expression := e3, helpers := h3, needsSchemaImport := needsSchemaImport }

/-- The `optional(...)` wrapper string. -/
def wrapOptional (e : Str) : Str := "optional(".data ++ e ++ ")".data

/-- The `withDefault(..., lit)` wrapper string. -/
def wrapWithDefault (e : Str) (d : CodeVal) : Str :=
  "withDefault(".data ++ e ++ ", ".data ++ toCodeLiteral d ++ ")".data

/-- The `redacted(...)` wrapper string. -/
def wrapRedacted (e : Str) : Str := "redacted(".data ++ e ++ ")".data

end Gen

namespace Infer

/-! ## Type inference: bucket and schema-key resolution (src/cli/infer.ts) -/
/-- The resolved per-category prefix table the CLI hands to `inferModel`
(src/cli/types.ts, `PrefixConfig`): one string per bucket, possibly
empty. -/
structure PrefixConfig where
  server : Str
  client : Str
  shared : Str
deriving DecidableEq

/-- The configured prefix of one bucket. -/
def pfxOf (p : PrefixConfig) : Bucket → Str
  | .server => p.server
  | .client => p.client
  | .shared => p.shared

/-- Model of `stripPrefix` (src/cli/infer.ts lines 133-140): strip a
matching nonempty prefix unless the result would be empty, in which
case the original key is kept. -/
def stripPfx (key pfx : Str) : Str :=
  if pfx = [] ∨ ¬ (pfx.isPrefixOf key) then key
  else
    let stripped := key.drop pfx.length
    if stripped.length > 0 then stripped else key

/-- Model of `inferBucketFromPrefix` (src/cli/infer.ts lines 109-131):
candidates in the fixed order client, server, shared; keep those with a
nonempty prefix the key starts with; stable-sort descending by prefix
length; take the head. -/
def inferBucketFromPfx (runtimeKey : Str) (p : PrefixConfig) :
    Option (Bucket × Str) :=
  let candidates := [(Bucket.client, p.client), (Bucket.server, p.server),
    (Bucket.shared, p.shared)]
  let matching := candidates.filter
    (fun c => c.2.length > 0 ∧ c.2.isPrefixOf runtimeKey)
  let sorted := stableSortBy (fun l r => r.2.length ≤ l.2.length) matching
  match sorted with
  | [] => none
  | best :: _ => some (best.1, stripPfx runtimeKey best.2)

/-- Model of `resolveBucketAndSchemaKey` (src/cli/infer.ts lines 82-107):
explicit `@bucket` directive, else active section bucket, else prefix
inference, else server with the key unchanged. -/
def resolveBucketAndSchemaKey (runtimeKey : Str) (p : PrefixConfig)
    (explicitBucket sectionBucket : Option Bucket) : Bucket × Str :=
  match explicitBucket.orElse (fun _ => sectionBucket) with
  | some b => (b, stripPfx runtimeKey (pfxOf p b))
  | none =>
      match inferBucketFromPfx runtimeKey p with
      | some r => r
      | none => (Bucket.server, runtimeKey)

end Infer

namespace Schemas

/-! ## Schema combinator decoding semantics (src/unnamed schema module,
`withDefault` / `optional` / `redacted`; also src/schemas.ts) -/
/-- A decoder: effect `Schema.decodeUnknownEither` specialised to the
engine inputs, which are a raw string or undefined (`none`). -/
abbrev Dec (α : Type) := Option String → Except String α

/-- Model of effect `Schema.UndefinedOr(schema)` = `Union(schema,
Undefined)`: union decoding tries the members in order, so the inner
schema is consulted first and the `Undefined` member (which accepts only
`undefined`) is the fallback. -/
def undefinedOr {α : Type} (s : Dec α) : Dec (Option α) := fun u =>
  match s u with
  | .ok a => .ok (some a)
  | .error e =>
      match u with
      | none => .ok none
      | some _ => .error e

/-- Model of `withDefault(schema, defaultValue)`: the transform from
`UndefinedOr(schema)` whose decode is `value ?? defaultValue`
(src/unnamed `withDefault`, lines 26-45; same shape in src/schemas.ts). -/
def withDefault {α : Type} (s : Dec α) (d : α) : Dec α := fun u =>
  (undefinedOr s u).map (fun x => x.getD d)

/-- Digit run to a natural number. -/
def digitsToNat : List Char → Option Nat
  | [] => none
  | cs =>
      if cs.all (fun c => c.isDigit) then
        some (cs.foldl (fun acc c => acc * 10 + (c.toNat - 48)) 0)
      else none

/-- Restricted model of the JS `Number()` coercion used by effect
`Schema.NumberFromString`, covering optionally-signed decimal integer
strings (sufficient for the port schema inputs in the claims). -/
def parseDecInt (s : String) : Option Int :=
  match s.data with
  | '-' :: rest => (digitsToNat rest).map (fun n => -(n : Int))
  | '+' :: rest => (digitsToNat rest).map (fun n => (n : Int))
  | cs => (digitsToNat cs).map (fun n => (n : Int))

/-- Model of the `port` schema (src/unnamed schema module lines 100-107):
NumberFromString piped through an integer check and a [1, 65535] bound. -/
def portDec : Dec Int := fun u =>
  match u with
  | none => .error "Expected string, actual undefined"
  | some s =>
      match parseDecInt s with
      | none => .error "Expected NumberFromString, actual not a number"
      | some n =>
          if 1 ≤ n ∧ n ≤ 65535 then .ok n
          else .error "Expected an integer between 1 and 65535"

/-- Model of the `requiredString` schema (minimum length 1). -/
def requiredStringDec : Dec String := fun u =>
  match u with
  | none => .error "Expected string, actual undefined"
  | some s =>
      if s.length ≥ 1 then .ok s
      else .error "Expected a string at least 1 character long"

end Schemas

namespace Engine

/-! ## Validation/merge engine (src/env.ts, src/prefix.ts, src/safe-env.ts) -/
/-- Decoded environment values: strings, numbers, booleans, arrays, and
the opaque `Redacted` wrapper. -/
inductive Val where
  | str (s : String)
  | num (n : Int)
  | boolV (b : Bool)
  | arr (l : List Val)
  | redactedV (v : Val)

/-- Model of `Redacted.isRedacted`. -/
def isRedacted : Val → Bool
  | .redactedV _ => true
  | _ => false

/-- Model of `Redacted.make`. -/
def redactedMake (v : Val) : Val := .redactedV v

/-- A schema validator as used by the engine: effect
`Schema.decodeUnknownEither(validator)(rawValue)` on a raw
string-or-undefined input. -/
abbrev Validator := Option String → Except String Val

/-- A JS object with string keys, in property order (keys unique in any
object produced by JS). -/
abbrev SchemaDict := List (String × Validator)

/-- JS `key in obj` / own-property test on an association list. -/
def containsKey (l : List (String × α)) (k : String) : Bool :=
  l.any (fun kv => kv.1 = k)

/-- JS property read `obj[k]` on an association list. -/
def lookupKey (l : List (String × α)) (k : String) : Option α :=
  (l.find? (fun kv => kv.1 = k)).map (fun kv => kv.2)

/-- JS property write `obj[k] = v`: overwrite in place if the key exists
(property order is preserved), else append. -/
def objUpd (t : List (String × α)) (k : String) (v : α) : List (String × α) :=
  if containsKey t k then t.map (fun kv => if kv.1 = k then (k, v) else kv)
  else t ++ [(k, v)]

/-- A raw environment record `Record<string, string | undefined>`: a
present key may still hold `undefined` (`none`), which matters for
`Object.assign` overriding. -/
abbrev Rec := List (String × Option String)

/-- Reading `record[k]`: absent and present-but-undefined both give
`undefined`. -/
def recGet (r : Rec) (k : String) : Option String :=
  (lookupKey r k).join

/-- `Object.assign(target, source)` for one source: copy every own
property of the source, in property order. -/
def assignInto (t : Rec) (src : Rec) : Rec :=
  src.foldl (fun acc kv => objUpd acc kv.1 kv.2) t

/-- `Object.assign(\x7b\x7d, base, ...results)` as used by `createEnv`
(src/env.ts line 341): the base runtime environment overlaid with each
resolver result in declared array order. -/
def assignRecords (base : Rec) (results : List Rec) : Rec :=
  results.foldl assignInto (assignInto [] base)

/-- Model of `normalizeRuntimeEnv` (src/env.ts lines 48-59). -/
def normalizeRuntimeEnv (r : Rec) (emptyStringAsUndefined : Bool) : Rec :=
  if emptyStringAsUndefined then
    r.map (fun kv => (kv.1, if kv.2 = some "" then none else kv.2))
  else r

/-- The `prefix` option: a bare string, a partial per-category map, or
absent (src/prefix.ts). -/
inductive PrefixArg where
  | undef
  | str (s : String)
  | map (server client shared : Option String)
deriving DecidableEq

/-- The resolved total per-category prefix table. -/
structure PrefixTable where
  server : String
  client : String
  shared : String
deriving DecidableEq

/-- Model of `resolvePrefixMap` (src/prefix.ts lines 7-18). -/
def resolvePrefixMap : PrefixArg → PrefixTable
  | .undef => ⟨"", "", ""⟩
  | .str s => ⟨s, s, s⟩
  | .map s c sh => ⟨s.getD "", c.getD "", sh.getD ""⟩

/-- Prefix of one category. -/
def prefixOfCat (t : PrefixTable) : Bucket → String
  | .server => t.server
  | .client => t.client
  | .shared => t.shared

/-- Model of `getKeyCategory` (src/env.ts lines 91-95). -/
def getKeyCategory (key : String) (client shared : SchemaDict) : Bucket :=
  if containsKey client key then .client
  else if containsKey shared key then .shared
  else .server

/-- The options record handed to `parseSchemaValues` (src/env.ts lines
99-105). -/
structure ParseOptions where
  client : SchemaDict
  shared : SchemaDict
  runtimeEnv : Rec
  prefixMap : PrefixTable
  autoRedactKeys : Option (List String)

/-- The pair of accumulators `parseSchemaValues` returns. -/
structure ParseOut where
  values : List (String × Val)
  errors : List String

/-- Model of `parseSchemaValues` (src/env.ts lines 97-131): decode every
declared key against its prefixed raw value, collecting one formatted
error line per failure and auto-redacting successful values whose
prefixed key is in the auto-redact set and which are not already
redacted. -/
def parseSchemaValues (schema : SchemaDict) (o : ParseOptions) : ParseOut :=
  match schema with
  | [] => ⟨[], []⟩
  | (key, validator) :: rest =>
      let category := getKeyCategory key o.client o.shared
      let envKey := prefixOfCat o.prefixMap category ++ key
      let rawValue := recGet o.runtimeEnv envKey
      let parsed := validator rawValue
      let out := parseSchemaValues rest o
      match parsed with
      | .error detail => ⟨out.values, (envKey ++ ": " ++ detail) :: out.errors⟩
      | .ok v =>
          let autoRedact :=
            match o.autoRedactKeys with
            | some ks => decide (envKey ∈ ks)
            | none => false
          let finalValue :=
            if (autoRedact && ! isRedacted v) then redactedMake v else v
          ⟨(key, finalValue) :: out.values, out.errors⟩

/-- The prefixed lookup key `parseSchemaValues` computes for a schema
key. -/
def envKeyOf (o : ParseOptions) (k : String) : String :=
  prefixOfCat o.prefixMap (getKeyCategory k o.client o.shared) ++ k

/-- The individual decode of one schema entry, as performed inside
`parseSchemaValues`. -/
def decodeOf (o : ParseOptions) (kv : String × Validator) : Except String Val :=
  kv.2 (recGet o.runtimeEnv (envKeyOf o kv.1))

/-- The engine error taxonomy: validation errors (src/errors.ts
`EnvValidationError`), client-access errors (`ClientAccessError`),
TypeErrors from the read-only proxy traps, and foreign thrown values. -/
inductive JsError where
  | envValidation (errors : List String)
  | clientAccess (key : String)
  | typeError (msg : String)
  | foreign (msg : String)
deriving DecidableEq

/-- Model of the JS `String(error)` coercion applied when a foreign
thrown value is wrapped into an `EnvValidationError`. -/
def jsErrorToString : JsError → String
  | .envValidation _ => "EnvValidationError"
  | .clientAccess k => "ClientAccessError: " ++ k
  | .typeError m => m
  | .foreign m => m

/-- The error-line list of
`error instanceof EnvValidationError ? error : new
EnvValidationError([String(error)])` — the normalization used both by
`raiseValidationErrors` (src/env.ts line 145), the resolver pipeline
(src/env.ts line 354), and `normalizeEnvValidationError`
(src/safe-env.ts lines 21-23). -/
def normalizeLines (e : JsError) : List String :=
  match e with
  | .envValidation l => l
  | e => [jsErrorToString e]

/-- Model of `raiseValidationErrors` (src/env.ts lines 133-150): nothing
to do without errors; otherwise run the optional callback, normalizing
anything it throws into the validation-error type, then raise the full
ordered error list. -/
def raiseValidationErrors (errors : List String)
    (onValidationError : Option (List String → Except JsError Unit)) :
    Except JsError Unit :=
  if errors = [] then .ok ()
  else
    match onValidationError with
    | some cb =>
        match cb errors with
        | .error e => .error (.envValidation (normalizeLines e))
        | .ok _ => .error (.envValidation errors)
    | none => .error (.envValidation errors)

/-- The per-env category metadata recorded in the `envMetaStore` side
table (src/env.ts lines 18-22); `Set<string>` is modelled as a list with
membership semantics. -/
structure EnvMeta where
  serverKeys : List String
  clientKeys : List String
  sharedKeys : List String
deriving DecidableEq

/-- An environment passed through `extends`: its already-validated
key/value pairs and its recorded metadata (`none` models an object the
side table knows nothing about, which `aggregateEnvKeys` skips). -/
structure ExtEnv where
  values : List (String × Val)
  meta : Option EnvMeta

/-- Keys of a schema dictionary. -/
def keysOf (d : List (String × α)) : List String := d.map (fun kv => kv.1)

/-- Model of `aggregateEnvKeys` (src/env.ts lines 61-80): own keys per
category plus the keys inherited from every extended env that has
metadata. -/
def aggregateEnvKeys (server client shared : SchemaDict)
    (extendsEnvs : List ExtEnv) : EnvMeta :=
  { serverKeys := keysOf server ++ extendsEnvs.flatMap (fun e =>
      match e.meta with | some m => m.serverKeys | none => [])
  , clientKeys := keysOf client ++ extendsEnvs.flatMap (fun e =>
      match e.meta with | some m => m.clientKeys | none => [])
  , sharedKeys := keysOf shared ++ extendsEnvs.flatMap (fun e =>
      match e.meta with | some m => m.sharedKeys | none => []) }

/-- Object-spread merge of two schema dictionaries (later keys
override). -/
def dictMerge (a b : SchemaDict) : SchemaDict :=
  b.foldl (fun acc kv => objUpd acc kv.1 kv.2) a

/-- Model of `selectSchemaForRuntime` (src/env.ts lines 82-89). -/
def selectSchemaForRuntime (isServer : Bool)
    (server client shared : SchemaDict) : SchemaDict :=
  if isServer then dictMerge (dictMerge server client) shared
  else dictMerge client shared

/-- Model of `mergeExtendedEnvs` (src/env.ts lines 152-169). -/
def mergeExtendedEnvs (extendsEnvs : List ExtEnv)
    (parsedValues : List (String × Val)) : List (String × Val) :=
  let merged := extendsEnvs.foldl
    (fun acc e => e.values.foldl (fun a kv => objUpd a kv.1 kv.2) acc) []
  parsedValues.foldl (fun a kv => objUpd a kv.1 kv.2) merged

/-- Model of `createClientBlockedKeys` (src/env.ts lines 171-181). -/
def createClientBlockedKeys (m : EnvMeta) : List String :=
  m.serverKeys.filter (fun k => ¬ (k ∈ m.clientKeys) ∧ ¬ (k ∈ m.sharedKeys))

/-- The read-only proxied environment returned by `createReadOnlyEnv`
(src/env.ts lines 183-211): the frozen value table plus the data the
trap closures capture. -/
structure ReadOnlyEnv where
  values : List (String × Val)
  isServer : Bool
  clientBlockedKeys : List String

/-- Model of `createReadOnlyEnv` (src/env.ts lines 183-211): freeze the
values and install the access-control traps. -/
def createReadOnlyEnv (envValues : List (String × Val)) (isServer : Bool)
    (clientBlockedKeys : List String) : ReadOnlyEnv :=
  ⟨envValues, isServer, clientBlockedKeys⟩

/-- The proxy `get` trap: a client-blocked key read off the server throws
`ClientAccessError`; otherwise the read passes through to the frozen
target. -/
def envGet (e : ReadOnlyEnv) (prop : String) : Except JsError (Option Val) :=
  if ¬ e.isServer ∧ prop ∈ e.clientBlockedKeys then
    .error (.clientAccess prop)
  else .ok (lookupKey e.values prop)

/-- The proxy `set` trap: always throws. -/
def envSet (_e : ReadOnlyEnv) (_prop : String) (_v : Val) :
    Except JsError Unit :=
  .error (.typeError "Environment object is read-only")

/-- The proxy `deleteProperty` trap: always throws. -/
def envDelete (_e : ReadOnlyEnv) (_prop : String) : Except JsError Unit :=
  .error (.typeError "Environment object is read-only")

/-- The proxy `defineProperty` trap: always throws. -/
def envDefineProperty (_e : ReadOnlyEnv) (_prop : String) (_v : Val) :
    Except JsError Unit :=
  .error (.typeError "Environment object is read-only")

/-- A resolver failure (src/resolvers/types.ts): resolver name and
message. -/
structure ResolverError where
  name : String
  message : String
deriving DecidableEq

/-- The options record for `createEnv` / `buildEnv`, with the ambient
state the source reads (`process.env`, `typeof window`, the
`ENVIL_INTROSPECT_ONLY` sentinel) made explicit, and each resolver
modelled by the outcome its effect eventually produces. -/
structure Options where
  server : SchemaDict
  client : SchemaDict
  shared : SchemaDict
  extendsEnvs : List ExtEnv
  runtimeEnv : Option Rec
  processEnv : Rec
  emptyStringAsUndefined : Bool
  isServer : Option Bool
  windowPresent : Bool
  pfx : PrefixArg
  onValidationError : Option (List String → Except JsError Unit)
  resolvers : Option (List (Except ResolverError Rec))
  autoRedactResolver : Option Bool
  autoRedactKeys : Option (List String)
  introspectOnly : Bool

/-- Model of `buildEnv` (src/env.ts lines 213-259). -/
def buildEnv (opts : Options) : Except JsError ReadOnlyEnv :=
  let extendsEnvs := opts.extendsEnvs
  let runtimeEnv := normalizeRuntimeEnv (opts.runtimeEnv.getD opts.processEnv)
    opts.emptyStringAsUndefined
  let isServer := opts.isServer.getD (! opts.windowPresent)
  let aggregated := aggregateEnvKeys opts.server opts.client opts.shared extendsEnvs
  let prefixMap := resolvePrefixMap opts.pfx
  let runtimeSchema := selectSchemaForRuntime isServer opts.server opts.client
    opts.shared
  let out := parseSchemaValues runtimeSchema
    ⟨opts.client, opts.shared, runtimeEnv, prefixMap, opts.autoRedactKeys⟩
  match raiseValidationErrors out.errors opts.onValidationError with
  | .error e => .error e
  | .ok _ =>
      let mergedValues := mergeExtendedEnvs extendsEnvs out.values
      let clientBlockedKeys := createClientBlockedKeys aggregated
      .ok (createReadOnlyEnv mergedValues isServer clientBlockedKeys)

/-- Model of the auto-redact key set built by `createEnv` (src/env.ts
lines 329-338): every key a resolver supplied a defined value for. -/
def autoRedactKeysOf (results : List Rec) : List String :=
  results.flatMap (fun r => (r.filter (fun kv => kv.2.isSome)).map (fun kv => kv.1))

/-- `Effect.all(resolvers)`: all resolvers run (concurrently in the
source); on success the results are in declared array order, on failure
the whole operation fails with a failing resolver's error (modelled as
the first in declared order). -/
def effectAll (rs : List (Except ResolverError Rec)) :
    Except ResolverError (List Rec) :=
  match rs with
  | [] => .ok []
  | r :: rest =>
      match r with
      | .error e => .error e
      | .ok v => (effectAll rest).map (fun l => v :: l)

/-- The typed failure channel of the effect `createEnv` returns. -/
inductive EnvFailure where
  | resolver (e : ResolverError)
  | validation (errors : List String)
deriving DecidableEq

/-- What `createEnv` hands back: either a normal resolved environment or
the no-op introspection proxy installed under `ENVIL_INTROSPECT_ONLY`. -/
inductive EnvObj where
  | real (e : ReadOnlyEnv)
  | introspectStub

/-- `createEnv` either returns synchronously (possibly throwing, the
`Except` error) or returns an effect with the typed failure channel. -/
inductive CreateOut where
  | sync (r : Except JsError EnvObj)
  | eff (r : Except EnvFailure EnvObj)

/-- Model of `createEnv` (src/env.ts lines 315-361): the introspection
sentinel short-circuits to a no-op proxy; a non-empty resolver list
produces an effect that runs all resolvers, merges their results over
the base environment in declared order, computes the auto-redact key set
unless `autoRedactResolver` is exactly false, and captures any
synchronous `buildEnv` throw into the validation failure channel;
otherwise `buildEnv` runs synchronously. -/
def createEnv (opts : Options) : CreateOut :=
  if opts.introspectOnly then .sync (.ok .introspectStub)
  else
    match opts.resolvers with
    | some rs =>
        if rs.length ≠ 0 then
          let shouldAutoRedact := opts.autoRedactResolver ≠ some false
          .eff (match effectAll rs with
            | .error e => .error (.resolver e)
            | .ok results =>
                let autoKeys :=
                  if shouldAutoRedact then autoRedactKeysOf results else []
                let mergedEnv :=
                  assignRecords (opts.runtimeEnv.getD opts.processEnv) results
                match buildEnv { opts with
                    runtimeEnv := some mergedEnv,
                    autoRedactKeys :=
                      if shouldAutoRedact then some autoKeys else none } with
                | .ok env => .ok (.real env)
                | .error e => .error (.validation (normalizeLines e)))
        else .sync ((buildEnv opts).map (fun e => .real e))
    | none => .sync ((buildEnv opts).map (fun e => .real e))

/-- The success-or-captured-failure value `safeCreateEnv` produces. -/
inductive SafeResult (ε : Type) where
  | ok (data : EnvObj)
  | err (e : ε)

/-- Extractor for the synchronous half of `CreateOut`; the effect case is
unreachable in the branch that uses it (see the C10 theorem, which
proves `createEnv` is synchronous whenever `resolvers` is absent). -/
def syncPart : CreateOut → Except JsError EnvObj
  | .sync r => r
  | .eff _ => .error (.foreign "unreachable")

/-- Model of `safeCreateEnv` (src/safe-env.ts lines 86-126): with
`resolvers` present the result is an effect that never fails, its
success value carrying either the data or the captured failure (a
synchronous throw from `createEnv` is caught and normalized); without
`resolvers` the result is a plain success/failure record, any throw
normalized by `normalizeEnvValidationError`. -/
def safeCreateEnv (opts : Options) :
    Sum (SafeResult (List String)) (SafeResult EnvFailure) :=
  if opts.resolvers.isSome then
    .inr (match createEnv opts with
      | .eff (.ok env) => .ok env
      | .eff (.error f) => .err f
      | .sync (.ok env) => .ok env
      | .sync (.error e) => .err (.validation (normalizeLines e)))
  else
    .inl (match syncPart (createEnv opts) with
      | .ok env => .ok env
      | .error e => .err (normalizeLines e))

/-- The auto-redact decision `parseSchemaValues` applies to one
successfully decoded value. -/
def autoWrap (o : ParseOptions) (envKey : String) (v : Val) : Val :=
  let autoRedact :=
    match o.autoRedactKeys with
    | some ks => decide (envKey ∈ ks)
    | none => false
  if (autoRedact && ! isRedacted v) then redactedMake v else v

/-- A validator used by the concrete witnesses. -/
def cStrValidator : Validator := fun _ => .ok (.str "v")

/-- Concrete options for the C3 witness: one server-only key, validated
on the client (`isServer = some false`). -/
def cOptsC3 : Options :=
  { server := [("SECRET", cStrValidator)], client := [], shared := []
  , extendsEnvs := [], runtimeEnv := some [], processEnv := []
  , emptyStringAsUndefined := false, isServer := some false
  , windowPresent := true, pfx := .undef, onValidationError := none
  , resolvers := none, autoRedactResolver := none, autoRedactKeys := none
  , introspectOnly := false }

/-- A concrete base environment for the C4 witness. -/
def cBase : Rec := [("A", some "base"), ("B", some "b")]

/-- First declared resolver result for the C4 witness. -/
def cR1 : Rec := [("A", some "first")]

/-- Second declared resolver result for the C4 witness. -/
def cR2 : Rec := [("A", some "second")]

/-- Concrete resolver results for the C5 witness. -/
def cResultsC5 : List Rec := [[("SECRET", some "s3cr3t")]]

/-- Concrete options for the C10 witness: one server key that validates
successfully, no resolvers. -/
def cOptsC10 : Options :=
  { cOptsC3 with server := [("A", cStrValidator)], isServer := some true }

end Engine

namespace Codec

/-! ## Dotenv directive codec (src/cli/dotenv-codec.ts) -/
/-- The per-entry directives record (src/cli/types.ts `ParsedDirectives`,
mutable form in src/cli/dotenv-codec.ts `MutableDirectives`). -/
structure Directives where
  type : Option SchemaKind
  optional : Option Bool
  hasDefault : Option Bool
  redacted : Option Bool
  bucket : Option Bucket
  stringEnumValues : Option (List Str)
deriving DecidableEq

/-- The empty directives record. -/
def emptyDirectives : Directives := ⟨none, none, none, none, none, none⟩

/-- One parsed assignment (src/cli/types.ts `DotenvAssignment`). -/
structure Entry where
  key : Str
  value : Str
  line : Nat
  sectionBucket : Option Bucket
  directives : Directives
deriving DecidableEq

/-- The partial per-bucket prefix map harvested from section directives
(src/cli/types.ts: the optional `Partial PrefixConfig` document field). -/
structure PrefixEntries where
  server : Option Str
  client : Option Str
  shared : Option Str
deriving DecidableEq

/-- A parsed dotenv document (src/cli/types.ts `DotenvDocument`); `pfx`
models its optional prefix field. -/
structure DotenvDocument where
  entries : List Entry
  pfx : Option PrefixEntries
deriving DecidableEq

/-- One bucket's entry of a partial prefix map. -/
def pfxGet (pe : PrefixEntries) : Bucket → Option Str
  | .server => pe.server
  | .client => pe.client
  | .shared => pe.shared

/-- The document's prefix entry for one bucket. -/
def docPfx (d : DotenvDocument) (b : Bucket) : Option Str :=
  d.pfx.bind (fun m => pfxGet m b)

/-- The hard parse errors thrown by the codec, each naming the offending
line where the source message does. -/
inductive ParseErr where
  | malformedAssignment (line : Nat)
  | malformedDirective (line : Nat)
  | typeNeedsValue (line : Nat)
  | enumNeedsValues (line : Nat)
  | enumNeedsNonempty (line : Nat)
  | invalidType (line : Nat)
  | invalidBool
  | bucketNeedsValue (line : Nat)
  | invalidBucket (line : Nat)
  | unknownDirective (line : Nat)
  | sectionInline (line : Nat)
deriving DecidableEq

/-- First character class of the assignment-key regex `[A-Za-z_]`. -/
def isKeyStart (c : Char) : Bool := c.isAlpha || c = '_'

/-- Later character class of the assignment-key regex `[A-Za-z0-9_]`. -/
def isKeyChar (c : Char) : Bool := c.isAlphanum || c = '_'

/-- ASCII lowering of one character (the inputs the codec lowercases are
ASCII directive names and type aliases). -/
def asciiLower (c : Char) : Char :=
  if 'A' ≤ c ∧ c ≤ 'Z' then Char.ofNat (c.toNat + 32) else c

/-- ASCII model of String.prototype.toLowerCase. -/
def lowerStr (s : Str) : Str := s.map asciiLower

/-- Model of String.prototype.split on the regex matching an optional CR
followed by LF: a lone CR stays inside its line. -/
def splitLines : Str → List Str
  | [] => [[]]
  | '\r' :: '\n' :: rest => [] :: splitLines rest
  | '\n' :: rest => [] :: splitLines rest
  | c :: rest =>
      match splitLines rest with
      | [] => [[c]]
      | l :: ls => (c :: l) :: ls

/-- Model of String.prototype.split on a comma. -/
def splitComma : Str → List Str
  | [] => [[]]
  | c :: rest =>
      if c = ',' then [] :: splitComma rest
      else
        match splitComma rest with
        | [] => [[c]]
        | l :: ls => (c :: l) :: ls

/-- Array.prototype.join with a comma separator. -/
def joinComma : List Str → Str
  | [] => []
  | [v] => v
  | v :: rest => v ++ ',' :: joinComma rest

/-- Array.prototype.join with a newline separator, followed by the final
newline the serializer appends. -/
def joinLines : List Str → Str
  | [] => ['\n']
  | [l] => l ++ ['\n']
  | l :: rest => l ++ '\n' :: joinLines rest

/-- Tokenizer of a directive comment: the split on the regex matching a
whitespace run directly followed by an at-sign (dotenv-codec.ts lines
200-203), before per-token trimming. -/
def splitTokensAux : Str → Str → Str → List Str
  | [], curr, ws => [curr ++ ws]
  | c :: rest, curr, ws =>
      if jsWhitespace c then splitTokensAux rest curr (ws ++ [c])
      else if c = '@' ∧ ws ≠ [] then curr :: splitTokensAux rest ['@'] []
      else splitTokensAux rest (curr ++ ws ++ [c]) []

/-- The token list of a directive comment: split, trim each token, drop
empties. -/
def splitDirectiveTokens (s : Str) : List Str :=
  ((splitTokensAux s [] []).map trim).filter (fun t => t ≠ [])

/-- The fields one parsed directive token may set (the shape of
`parseDirectiveToken`'s return value). -/
structure TokenResult where
  type : Option SchemaKind
  optional : Option Bool
  hasDefault : Option Bool
  redacted : Option Bool
  bucket : Option Bucket
  stringEnumValues : Option (List Str)
  sectionBucket : Option Bucket
  sectionPfx : Option Str
deriving DecidableEq

/-- The token result with no field set. -/
def emptyTokenResult : TokenResult :=
  ⟨none, none, none, none, none, none, none, none⟩

/-- Model of `parseSchemaKind` (dotenv-codec.ts lines 288-317): the
case-insensitive alias map of `@type` values. -/
def parseSchemaKind (rawValue : Str) (lineNumber : Nat) :
    Except ParseErr SchemaKind :=
  let normalized := lowerStr (trim rawValue)
  if normalized = "string".data then .ok .requiredString
  else if normalized = "requiredstring".data then .ok .requiredString
  else if normalized = "bool".data then .ok .boolean
  else if normalized = "boolean".data then .ok .boolean
  else if normalized = "int".data then .ok .integer
  else if normalized = "integer".data then .ok .integer
  else if normalized = "number".data then .ok .number
  else if normalized = "port".data then .ok .port
  else if normalized = "url".data then .ok .url
  else if normalized = "postgresurl".data then .ok .postgresUrl
  else if normalized = "redisurl".data then .ok .redisUrl
  else if normalized = "mongourl".data then .ok .mongoUrl
  else if normalized = "mysqlurl".data then .ok .mysqlUrl
  else if normalized = "commaseparated".data then .ok .commaSeparated
  else if normalized = "commaseparatednumbers".data then .ok .commaSeparatedNumbers
  else if normalized = "commaseparatedurls".data then .ok .commaSeparatedUrls
  else if normalized = "json".data then .ok .json
  else if normalized = "json(schema.unknown)".data then .ok .json
  else .error (.invalidType lineNumber)

/-- Model of `parseBooleanDirective` (src/cli/literals.ts lines 63-72);
the call sites pass `value or undefined`, so an empty value arrives as
`none`. -/
def parseBooleanDirective (value : Option Str) (defaultValue : Bool) :
    Except ParseErr Bool :=
  match value with
  | none => .ok defaultValue
  | some v =>
      if v = [] then .ok defaultValue
      else
        let normalized := lowerStr (trim v)
        if normalized = "true".data then .ok true
        else if normalized = "false".data then .ok false
        else .error .invalidBool

/-- Model of `parseDirectiveToken` (dotenv-codec.ts lines 222-286): split
the token at its first space into a directive name and value, then
dispatch on the name. -/
def parseDirectiveToken (token : Str) (lineNumber : Nat) :
    Except ParseErr TokenResult :=
  if token.head? ≠ some '@' then .error (.malformedDirective lineNumber)
  else
    let spanned := token.span (fun c => c ≠ ' ')
    let namePart := if spanned.2 = [] then token.drop 1 else spanned.1.drop 1
    let name := trim namePart
    let value := if spanned.2 = [] then [] else trim (spanned.2.drop 1)
    if name = "server".data then
      if value ≠ [] then
        .ok { emptyTokenResult with sectionBucket := some .server, sectionPfx := some value }
      else .ok { emptyTokenResult with sectionBucket := some .server }
    else if name = "client".data then
      if value ≠ [] then
        .ok { emptyTokenResult with sectionBucket := some .client, sectionPfx := some value }
      else .ok { emptyTokenResult with sectionBucket := some .client }
    else if name = "shared".data then
      if value ≠ [] then
        .ok { emptyTokenResult with sectionBucket := some .shared, sectionPfx := some value }
      else .ok { emptyTokenResult with sectionBucket := some .shared }
    else if name = "type".data then
      if value = [] then .error (.typeNeedsValue lineNumber)
      else if value = "enum".data ∨ ("enum ".data).isPrefixOf value then
        let raw := trim (value.drop 4)
        if raw = [] then .error (.enumNeedsValues lineNumber)
        else
          let stringEnumValues := ((splitComma raw).map trim).filter (fun v => v ≠ [])
          if stringEnumValues = [] then .error (.enumNeedsNonempty lineNumber)
          else
            .ok { emptyTokenResult with
                    type := some SchemaKind.stringEnum,
                    stringEnumValues := some stringEnumValues }
      else
        (parseSchemaKind value lineNumber).map
          (fun k => { emptyTokenResult with type := some k })
    else if name = "optional".data then
      (parseBooleanDirective (if value = [] then none else some value) true).map
        (fun b => { emptyTokenResult with optional := some b })
    else if name = "no-default".data then
      .ok { emptyTokenResult with hasDefault := some false }
    else if name = "redacted".data then
      (parseBooleanDirective (if value = [] then none else some value) true).map
        (fun b => { emptyTokenResult with redacted := some b })
    else if name = "bucket".data then
      if value = [] then .error (.bucketNeedsValue lineNumber)
      else if value = "server".data then
        .ok { emptyTokenResult with bucket := some .server }
      else if value = "client".data then
        .ok { emptyTokenResult with bucket := some .client }
      else if value = "shared".data then
        .ok { emptyTokenResult with bucket := some .shared }
      else .error (.invalidBucket lineNumber)
    else .error (.unknownDirective lineNumber)

/-- The result of one directive comment group. -/
structure GroupResult where
  directives : Directives
  sectionBucket : Option Bucket
  sectionPfx : Option Str
deriving DecidableEq

/-- Merging one parsed token into the group accumulator: each field the
token carries overwrites the accumulator's (`if (field in parsed) ...`
in dotenv-codec.ts lines 207-217). -/
def applyToken (acc : GroupResult) (t : TokenResult) : GroupResult :=
  { directives :=
      { type := t.type.orElse (fun _ => acc.directives.type)
      , optional := t.optional.orElse (fun _ => acc.directives.optional)
      , hasDefault := t.hasDefault.orElse (fun _ => acc.directives.hasDefault)
      , redacted := t.redacted.orElse (fun _ => acc.directives.redacted)
      , bucket := t.bucket.orElse (fun _ => acc.directives.bucket)
      , stringEnumValues :=
          t.stringEnumValues.orElse (fun _ => acc.directives.stringEnumValues) }
  , sectionBucket := t.sectionBucket.orElse (fun _ => acc.sectionBucket)
  , sectionPfx := t.sectionPfx.orElse (fun _ => acc.sectionPfx) }

/-- Model of `parseDirectiveGroup` (dotenv-codec.ts lines 194-220). -/
def parseDirectiveGroup (directiveText : Str) (lineNumber : Nat)
    (base : Directives) : Except ParseErr GroupResult :=
  (splitDirectiveTokens directiveText).foldlM
    (fun acc token => (parseDirectiveToken token lineNumber).map (applyToken acc))
    ⟨base, none, none⟩

/-- Model of `splitValueAndInlineComment`'s scan (dotenv-codec.ts lines
155-192): track single/double quote state and backslash escaping; an
unquoted, unescaped hash splits the string. -/
def svAux : Str → Bool → Bool → Bool → Option (Str × Str)
  | [], _, _, _ => none
  | c :: rest, inS, inD, esc =>
      if esc then (svAux rest inS inD false).map (fun p => (c :: p.1, p.2))
      else if c = bsl then (svAux rest inS inD true).map (fun p => (c :: p.1, p.2))
      else if c = sq ∧ ¬ inD then
        (svAux rest (! inS) inD false).map (fun p => (c :: p.1, p.2))
      else if c = dq ∧ ¬ inS then
        (svAux rest inS (! inD) false).map (fun p => (c :: p.1, p.2))
      else if c = '#' ∧ ¬ inS ∧ ¬ inD then some ([], rest)
      else (svAux rest inS inD false).map (fun p => (c :: p.1, p.2))

/-- Model of `splitValueAndInlineComment`: the value (trimmed at its end)
and, when an inline comment starts, the text after the hash. -/
def splitValueAndInlineComment (value : Str) : Str × Option Str :=
  match svAux value false false false with
  | some p => (trimRight p.1, some p.2)
  | none => (value, none)

/-- Model of `normalizeAssignedValue` (dotenv-codec.ts lines 319-327):
strip one pair of surrounding matching quotes. -/
def normalizeAssignedValue (value : Str) : Str :=
  if (value.head? = some dq ∧ value.getLast? = some dq) ∨
      (value.head? = some sq ∧ value.getLast? = some sq) then
    (value.drop 1).dropLast
  else value

/-- The assignment regex: an identifier key, optional whitespace, an
equals sign, and the rest of the line. -/
def matchAssign (trimmed : Str) : Option (Str × Str) :=
  match trimmed with
  | [] => none
  | c :: rest =>
      if isKeyStart c then
        let keyTail := rest.takeWhile isKeyChar
        let after := (rest.drop keyTail.length).dropWhile jsWhitespace
        match after with
        | '=' :: rhs => some (c :: keyTail, rhs)
        | _ => none
      else none

/-- The parser's loop state: accumulated entries, harvested prefixes, the
active section bucket, and pending directives. -/
structure PState where
  entries : List Entry
  pfxServer : Option Str
  pfxClient : Option Str
  pfxShared : Option Str
  activeBucket : Option Bucket
  pending : Directives
deriving DecidableEq

/-- Registering one bucket's section prefix. -/
def setPfx (st : PState) (b : Bucket) (p : Str) : PState :=
  match b with
  | .server => { st with pfxServer := some p }
  | .client => { st with pfxClient := some p }
  | .shared => { st with pfxShared := some p }

/-- The initial parser state. -/
def initState : PState := ⟨[], none, none, none, none, emptyDirectives⟩

/-- Processing of a single line of dotenv text (the body of the loop in
`parseDotenvText`, dotenv-codec.ts lines 44-98). -/
def parseStep (st : PState) (lineNumber : Nat) (line : Str) :
    Except ParseErr PState :=
  let trimmed := trim line
  if trimmed = [] then .ok st
  else if trimmed.head? = some '#' then
    let comment := trim (trimmed.drop 1)
    if comment.head? = some '@' then
      match parseDirectiveGroup comment lineNumber st.pending with
      | .error e => .error e
      | .ok g =>
          match g.sectionBucket with
          | some b =>
              let st2 := { st with
                             activeBucket := some b,
                             pending := emptyDirectives }
              match g.sectionPfx with
              | some p => .ok (setPfx st2 b p)
              | none => .ok st2
          | none => .ok { st with pending := g.directives }
    else .ok st
  else
    match matchAssign trimmed with
    | none => .error (.malformedAssignment lineNumber)
    | some kr =>
        let split := splitValueAndInlineComment kr.2
        let value := normalizeAssignedValue (trim split.1)
        let dirRes : Except ParseErr Directives :=
          match split.2 with
          | some com =>
              let inlineComment := trim com
              if inlineComment.head? = some '@' then
                match parseDirectiveGroup inlineComment lineNumber st.pending with
                | .error e => .error e
                | .ok g =>
                    if g.sectionBucket.isSome then
                      .error (.sectionInline lineNumber)
                    else .ok g.directives
              else .ok st.pending
          | none => .ok st.pending
        match dirRes with
        | .error e => .error e
        | .ok directives =>
            .ok { st with
              entries := st.entries ++
                [⟨kr.1, value, lineNumber, st.activeBucket, directives⟩],
              pending := emptyDirectives }

/-- The parser loop over the split lines, threading the state. -/
def parseLinesState (st : PState) (n : Nat) : List Str → Except ParseErr PState
  | [] => .ok st
  | line :: rest =>
      match parseStep st n line with
      | .error e => .error e
      | .ok st2 => parseLinesState st2 (n + 1) rest

/-- The document assembled from the final state: the entries in source
order, plus the prefix map when some harvested prefix is nonempty. -/
def finishDoc (st : PState) : DotenvDocument :=
  let present : Option Str → Bool := fun o =>
    match o with
    | some p => p ≠ []
    | none => false
  let hasP := present st.pfxServer || present st.pfxClient || present st.pfxShared
  { entries := st.entries
  , pfx := if hasP then some ⟨st.pfxServer, st.pfxClient, st.pfxShared⟩ else none }

/-- Model of `parseDotenvText` (dotenv-codec.ts lines 37-102). -/
def parseDotenvText (text : Str) : Except ParseErr DotenvDocument :=
  (parseLinesState initState 1 (splitLines text)).map finishDoc

/-- An entry's bucket on serialization: the explicit bucket directive,
else the section bucket, else server (dotenv-codec.ts line 121). -/
def resolvedBucket (e : Entry) : Bucket :=
  (e.directives.bucket.orElse (fun _ => e.sectionBucket)).getD .server

/-- Code-point comparison standing in for String.prototype.localeCompare
(the keys the codec sorts are ASCII identifiers). -/
def strLe : Str → Str → Bool
  | [], _ => true
  | _ :: _, [] => false
  | a :: as, b :: bs => if a = b then strLe as bs else decide (a.toNat ≤ b.toNat)

/-- The serializer's comparator: source line first, then key
(dotenv-codec.ts lines 115-118). -/
def entryLe (l r : Entry) : Bool :=
  if l.line = r.line then strLe l.key r.key else decide (l.line < r.line)

/-- The stable sort of the entries before grouping. -/
def sortEntries (es : List Entry) : List Entry := stableSortBy entryLe es

/-- Model of `serializeEnvValue` (dotenv-codec.ts lines 329-338):
`toEnvValueLiteral` is the identity on strings; empty stays empty; a
value containing whitespace or a hash is JSON-quoted. -/
def serializeEnvValue (value : Str) : Str :=
  if value = [] then []
  else if value.any (fun c => jsWhitespace c || c = '#') then jsonQuote value
  else value

/-- The `# @type enum v1,v2,...` directive line. -/
def enumLine (vs : List Str) : Str := "# @type enum ".data ++ joinComma vs

/-- A bucket header line, with the prefix argument when one is present
and nonempty (dotenv-codec.ts line 129). -/
def headerLine (b : Bucket) (p : Option Str) : Str :=
  match p with
  | some pv =>
      if pv ≠ [] then "# @".data ++ bucketName b ++ ' ' :: pv
      else "# @".data ++ bucketName b
  | none => "# @".data ++ bucketName b

/-- The lines one entry contributes: the enum type line (only for a
stringEnum type with attached values), then optional, no-default and
redacted markers, then the assignment (dotenv-codec.ts lines 132-145). -/
def entryLines (e : Entry) : List Str :=
  (match e.directives.type, e.directives.stringEnumValues with
   | some .stringEnum, some vs => [enumLine vs]
   | _, _ => []) ++
  (if e.directives.optional.getD false then ["# @optional".data] else []) ++
  (if e.directives.hasDefault = some false then ["# @no-default".data] else []) ++
  (if e.directives.redacted.getD false then ["# @redacted".data] else []) ++
  [e.key ++ '=' :: serializeEnvValue e.value]

/-- One bucket's section of the output: the header, a blank line, then
each grouped entry's lines each followed by a blank line. -/
def bucketBlock (doc : DotenvDocument) (b : Bucket) (sorted : List Entry) :
    List Str :=
  headerLine b (docPfx doc b) :: [] ::
    (sorted.filter (fun e => resolvedBucket e = b)).flatMap
      (fun e => entryLines e ++ [[]])

/-- Popping the trailing blank lines (dotenv-codec.ts lines 148-150). -/
def dropTrailingEmpties (ls : List Str) : List Str :=
  (ls.reverse.dropWhile (fun l => l = [])).reverse

/-- All output lines before the trailing-blank trim. -/
def encodeLines (doc : DotenvDocument) : List Str :=
  let sorted := sortEntries doc.entries
  bucketBlock doc .server sorted ++ bucketBlock doc .client sorted ++
    bucketBlock doc .shared sorted

/-- Model of `stringifyDotenvDocument` (dotenv-codec.ts lines 104-153). -/
def stringifyDotenvDocument (doc : DotenvDocument) : Str :=
  joinLines (dropTrailingEmpties (encodeLines doc))

/-- A well-formed assignment key: what the assignment regex accepts. -/
def validKey (k : Str) : Bool :=
  match k with
  | [] => false
  | c :: rest => isKeyStart c && rest.all isKeyChar

/-- A well-formed enum value: nonempty, trimmed, and free of commas,
at-signs and line breaks (what the directive grammar can carry). -/
def validEnumValue (v : Str) : Bool :=
  (v ≠ [] : Bool) && decide (trim v = v) &&
    v.all (fun c => c ≠ ',' && c ≠ '@' && c ≠ '\n' && c ≠ '\r')

/-- Well-formed directives: when the enum type line would be emitted, its
value list is nonempty and each value well-formed. -/
def validDirectives (d : Directives) : Bool :=
  match d.type, d.stringEnumValues with
  | some .stringEnum, some vs => (vs ≠ [] : Bool) && vs.all validEnumValue
  | _, _ => true

/-- A well-formed section prefix: nonempty, free of whitespace and
at-signs (what a header line can carry). -/
def validPfxStr (p : Str) : Bool :=
  (p ≠ [] : Bool) && p.all (fun c => ! jsWhitespace c && c ≠ '@')

/-- One optional prefix entry is well-formed when present. -/
def validDocPfx (o : Option Str) : Bool :=
  match o with
  | some p => validPfxStr p
  | none => true

/-- A valid document: every key is regex-shaped, every enum directive
carries well-formed values, every prefix entry is well-formed. -/
def validDoc (doc : DotenvDocument) : Bool :=
  doc.entries.all (fun e => validKey e.key && validDirectives e.directives) &&
    (match doc.pfx with
     | some m => validDocPfx m.server && validDocPfx m.client && validDocPfx m.shared
     | none => true)

/-- The directive normalization a serialize/parse round trip performs:
the enum type survives with its values, true-valued optional/redacted
and false-valued no-default markers survive, everything else (non-enum
type overrides, explicit false/true spellings, the per-entry bucket
directive) is re-expressed or dropped. -/
def roundDirectives (d : Directives) : Directives :=
  { type :=
      match d.type, d.stringEnumValues with
      | some .stringEnum, some _ => some .stringEnum
      | _, _ => none
  , optional := if d.optional = some true then some true else none
  , hasDefault := if d.hasDefault = some false then some false else none
  , redacted := if d.redacted = some true then some true else none
  , bucket := none
  , stringEnumValues :=
      match d.type, d.stringEnumValues with
      | some .stringEnum, some vs => some vs
      | _, _ => none }

/-- The value a round trip leaves in an entry (quotes and escapes are not
restored; the claims do not constrain values). -/
def reparsedValue (v : Str) : Str :=
  normalizeAssignedValue (trim (splitValueAndInlineComment (serializeEnvValue v)).1)

/-- What the C1 claim compares on each reparsed entry: key, resolved
bucket, directives. -/
def entrySummary (e : Entry) : Str × Bucket × Directives :=
  (e.key, resolvedBucket e, e.directives)

/-- What the C1 claim expects each original entry to round-trip to. -/
def expectedSummary (e : Entry) : Str × Bucket × Directives :=
  (e.key, resolvedBucket e, roundDirectives e.directives)

/-- The state change a (valid) bucket header line causes: the active
bucket switches, pending directives reset, and a carried prefix is
recorded. -/
def applyHeader (st : PState) (b : Bucket) (o : Option Str) : PState :=
  match o with
  | some p => setPfx { st with activeBucket := some b, pending := emptyDirectives } b p
  | none => { st with activeBucket := some b, pending := emptyDirectives }

/-- The parser state's harvested prefix for one bucket. -/
def statePfx (st : PState) : Bucket → Option Str
  | .server => st.pfxServer
  | .client => st.pfxClient
  | .shared => st.pfxShared

/-- A document whose single entry carries an explicit `@type port`
directive: the serializer emits no type line for it, so the directive is
lost on a round trip. -/
def cDocC1 : DotenvDocument :=
  ⟨[⟨"PORT".data, "3000".data, 3, some Bucket.server,
      ⟨some SchemaKind.port, none, none, none, none, none⟩⟩], none⟩

/-- A valid document exercising every directive the round trip preserves:
an enum type with values, optional, no-default and redacted markers, and
per-bucket prefixes. -/
def cDocC1W : DotenvDocument :=
  ⟨[⟨"MODE".data, "dev".data, 1, some Bucket.client,
      ⟨some SchemaKind.stringEnum, some true, some false, some true, none,
        some ["dev".data, "prod".data]⟩⟩],
    some ⟨some "SRV".data, some "PUB".data, none⟩⟩

end Codec

theorem stableInsert_perm (le : α → α → Bool) (x : α) (l : List α) :
    (stableInsert le x l).Perm (x :: l) := by
  induction l with
  | nil => simp [stableInsert]
  | cons y ys ih =>
      simp only [stableInsert]
      split
      · exact List.Perm.refl _
      · exact (List.Perm.cons y ih).trans (List.Perm.swap x y ys)

theorem stableSortBy_perm (le : α → α → Bool) (l : List α) :
    (stableSortBy le l).Perm l := by
  suffices h : ∀ acc : List α,
      (l.foldl (fun acc x => stableInsert le x acc) acc).Perm (acc ++ l) by
    simpa [stableSortBy] using h []
  induction l with
  | nil => intro acc; simp
  | cons y ys ih =>
      intro acc
      simp only [List.foldl_cons]
      refine (ih (stableInsert le y acc)).trans ?_
      have h1 : (stableInsert le y acc ++ ys).Perm (y :: (acc ++ ys)) :=
        (stableInsert_perm le y acc).append_right ys
      exact h1.trans (List.perm_middle.symm)

theorem stableInsert_pairwise (le : α → α → Bool)
    (htrans : ∀ a b c, le a b → le b c → le a c)
    (htotal : ∀ a b, le a b ∨ le b a)
    (x : α) (l : List α) (hl : l.Pairwise (fun a b => le a b)) :
    (stableInsert le x l).Pairwise (fun a b => le a b) := by
  induction l with
  | nil => simp [stableInsert]
  | cons y ys ih =>
      rcases List.pairwise_cons.mp hl with ⟨hy, hys⟩
      simp only [stableInsert]
      split
      · rename_i hcond
        refine List.pairwise_cons.mpr ⟨?_, hl⟩
        intro b hb
        rcases hb with _ | hb
        · exact hcond.1
        · exact htrans _ _ _ hcond.1 (hy _ (by assumption))
      · rename_i hcond
        have hyx : le y x := by
          by_cases h1 : le x y
          · by_cases h2 : le y x
            · exact h2
            · exact absurd ⟨h1, h2⟩ hcond
          · rcases htotal x y with h | h
            · exact absurd h h1
            · exact h
        refine List.pairwise_cons.mpr ⟨?_, ih hys⟩
        intro b hb
        have hmem := (stableInsert_perm le x ys).mem_iff.mp hb
        rcases List.mem_cons.mp hmem with h | h
        · subst h; exact hyx
        · exact hy _ h

theorem stableSortBy_pairwise (le : α → α → Bool)
    (htrans : ∀ a b c, le a b → le b c → le a c)
    (htotal : ∀ a b, le a b ∨ le b a)
    (l : List α) :
    (stableSortBy le l).Pairwise (fun a b => le a b) := by
  suffices h : ∀ acc : List α, acc.Pairwise (fun a b => le a b) →
      (l.foldl (fun acc x => stableInsert le x acc) acc).Pairwise
        (fun a b => le a b) by
    exact h [] (by simp)
  induction l with
  | nil => intro acc hacc; simpa using hacc
  | cons y ys ih =>
      intro acc hacc
      exact ih _ (stableInsert_pairwise le htrans htotal y acc hacc)

namespace Infer

theorem stableSortBy_eq_nil (le : α → α → Bool) (l : List α) :
    stableSortBy le l = [] ↔ l = [] := by
  constructor
  · intro h
    have := stableSortBy_perm le l
    rw [h] at this
    exact this.symm.eq_nil
  · intro h; subst h; rfl

/-- Sorted-by-descending-prefix-length facts about `inferBucketFromPfx`:
when it yields a bucket, that bucket has a nonempty matching prefix of
maximal length and the schema key is the stripped key; when it yields
nothing, no bucket has a nonempty matching prefix. -/
theorem inferBucketFromPfx_spec (key : Str) (p : PrefixConfig) :
    (∀ b sk, inferBucketFromPfx key p = some (b, sk) →
      (pfxOf p b).length > 0 ∧ (pfxOf p b).isPrefixOf key ∧
      sk = stripPfx key (pfxOf p b) ∧
      ∀ b2, (pfxOf p b2).length > 0 → (pfxOf p b2).isPrefixOf key →
        (pfxOf p b2).length ≤ (pfxOf p b).length) ∧
    (inferBucketFromPfx key p = none →
      ∀ b, ¬((pfxOf p b).length > 0 ∧ (pfxOf p b).isPrefixOf key = true)) := by
  set cands : List (Bucket × Str) := [(Bucket.client, p.client),
    (Bucket.server, p.server), (Bucket.shared, p.shared)] with hcands
  set matching := cands.filter
    (fun c => c.2.length > 0 ∧ c.2.isPrefixOf key) with hmatching
  set le : Bucket × Str → Bucket × Str → Bool :=
    fun l r => r.2.length ≤ l.2.length with hle
  have hperm : (stableSortBy le matching).Perm matching := stableSortBy_perm le matching
  have hpair : (stableSortBy le matching).Pairwise (fun a b => le a b) := by
    refine stableSortBy_pairwise le ?_ ?_ matching
    · intro a b c hab hbc
      simp only [hle, decide_eq_true_eq] at hab hbc ⊢
      omega
    · intro a b
      simp only [hle, decide_eq_true_eq]
      omega
  have hsnd : ∀ c ∈ cands, c.2 = pfxOf p c.1 := by
    intro c hc
    simp only [hcands, List.mem_cons, List.not_mem_nil, or_false] at hc
    rcases hc with h | h | h <;> subst h <;> rfl
  have hbmem : ∀ b2 : Bucket, (b2, pfxOf p b2) ∈ cands := by
    intro b2
    cases b2 <;> simp [hcands, pfxOf]
  constructor
  · intro b sk hres
    simp only [inferBucketFromPfx] at hres
    rcases hsorted : stableSortBy le matching with _ | ⟨best, rest⟩
    · rw [← hmatching, ← hle] at hres
      rw [hsorted] at hres
      simp at hres
    · rw [← hmatching, ← hle] at hres
      rw [hsorted] at hres
      simp only [Option.some.injEq, Prod.mk.injEq] at hres
      obtain ⟨hb, hsk⟩ := hres
      have hbestmem : best ∈ matching := by
        have : best ∈ stableSortBy le matching := by rw [hsorted]; exact List.mem_cons_self _ _
        exact hperm.subset this
      have hbestfilter := List.mem_filter.mp hbestmem
      have hbest2 : best.2 = pfxOf p best.1 := hsnd best hbestfilter.1
      have hbestpred := hbestfilter.2
      simp only [decide_eq_true_eq, Bool.and_eq_true] at hbestpred
      subst hb
      refine ⟨?_, ?_, ?_, ?_⟩
      · rw [← hbest2]
        simpa using hbestpred.1
      · rw [← hbest2]
        simpa using hbestpred.2
      · rw [← hsk, hbest2]
      · intro b2 h1 h2
        have hc2 : (b2, pfxOf p b2) ∈ matching := by
          refine List.mem_filter.mpr ⟨hbmem b2, ?_⟩
          simp only [decide_eq_true_eq, Bool.and_eq_true]
          exact ⟨by simpa using h1, by simpa using h2⟩
        have hc2sorted : (b2, pfxOf p b2) ∈ stableSortBy le matching :=
          hperm.mem_iff.mpr hc2
        rw [hsorted] at hc2sorted
        rcases List.mem_cons.mp hc2sorted with h | h
        · rw [← hbest2, ← h]
        · rw [hsorted] at hpair
          have := (List.pairwise_cons.mp hpair).1 _ h
          simp only [hle, decide_eq_true_eq] at this
          rw [← hbest2]
          simpa using this
  · intro hres b hb
    simp only [inferBucketFromPfx] at hres
    rw [← hmatching, ← hle] at hres
    rcases hsorted : stableSortBy le matching with _ | ⟨best, rest⟩
    · have hm : matching = [] := (stableSortBy_eq_nil le matching).mp hsorted
      have : (b, pfxOf p b) ∈ matching := by
        refine List.mem_filter.mpr ⟨hbmem b, ?_⟩
        simp only [decide_eq_true_eq, Bool.and_eq_true]
        exact ⟨by simpa using hb.1, by simpa using hb.2⟩
      rw [hm] at this
      simp at this
    · rw [hsorted] at hres
      simp at hres

end Infer

/-- C8: the source generator emits each schema expression by wrapping the
base kind expression in the fixed order — optional only when the variable
has no default, then withDefault with the rendered default literal, then
redacted — and in particular a port variable with default 3000 and the
redacted flag renders as `redacted(withDefault(port, 3000))`. -/
theorem claim_C8 (kind : SchemaKind) (w : Gen.Wrappers) :
    (Gen.renderSchemaExpression kind w).expression =
      (if w.redacted then Gen.wrapRedacted else id)
        ((if w.hasDefault then (fun e => Gen.wrapWithDefault e w.defaultValue)
          else if w.optional then Gen.wrapOptional else id)
          (Gen.baseKindExpression kind w.stringEnumValues)) ∧
    (∀ o : Bool,
      (Gen.renderSchemaExpression SchemaKind.port
        ⟨o, true, Gen.CodeVal.int 3000, true, none⟩).expression
        = "redacted(withDefault(port, 3000))".data) := by
  constructor
  · cases w with
    | mk o hd dv r vs =>
      simp only [Gen.renderSchemaExpression]
      cases hd <;> cases o <;> cases r <;>
        simp [Gen.wrapRedacted, Gen.wrapOptional, Gen.wrapWithDefault]
  · intro o
    cases o <;> decide

/-- C7: bucket and schema-key resolution follows the strict precedence
explicit bucket directive, else section bucket, else longest matching
nonempty configured prefix (with the schema key prefix-stripped), else
server with the key unchanged; stripping a prefix equal to the whole key
keeps the key whole. -/
theorem claim_C7 (key : Str) (p : Infer.PrefixConfig)
    (eb sb : Option Bucket) :
    (∀ b, eb = some b →
      Infer.resolveBucketAndSchemaKey key p eb sb
        = (b, Infer.stripPfx key (Infer.pfxOf p b))) ∧
    (eb = none → ∀ b, sb = some b →
      Infer.resolveBucketAndSchemaKey key p eb sb
        = (b, Infer.stripPfx key (Infer.pfxOf p b))) ∧
    (eb = none → sb = none →
      ∀ b, (Infer.pfxOf p b).length > 0 → (Infer.pfxOf p b).isPrefixOf key →
        let r := Infer.resolveBucketAndSchemaKey key p eb sb
        (Infer.pfxOf p r.1).length > 0 ∧ (Infer.pfxOf p r.1).isPrefixOf key ∧
        (Infer.pfxOf p b).length ≤ (Infer.pfxOf p r.1).length ∧
        r.2 = Infer.stripPfx key (Infer.pfxOf p r.1)) ∧
    (eb = none → sb = none →
      (∀ b, ¬((Infer.pfxOf p b).length > 0 ∧
        (Infer.pfxOf p b).isPrefixOf key = true)) →
      Infer.resolveBucketAndSchemaKey key p eb sb = (Bucket.server, key)) ∧
    (∀ q : Str, Infer.stripPfx q q = q) := by
  refine ⟨?_, ?_, ?_, ?_, ?_⟩
  · intro b hb
    subst hb
    rfl
  · intro he b hb
    subst he; subst hb
    rfl
  · intro he hs b h1 h2
    subst he; subst hs
    intro r
    rcases hinf : Infer.inferBucketFromPfx key p with _ | ⟨b0, sk0⟩
    · exact absurd ⟨h1, h2⟩ ((Infer.inferBucketFromPfx_spec key p).2 hinf b)
    · obtain ⟨hp1, hp2, hp3, hp4⟩ :=
        (Infer.inferBucketFromPfx_spec key p).1 b0 sk0 hinf
      have hr : r = (b0, sk0) := by
        simp only [r, Infer.resolveBucketAndSchemaKey, Option.orElse, hinf]
      rw [hr]
      exact ⟨hp1, hp2, hp4 b h1 h2, hp3⟩
  · intro he hs hnone
    subst he; subst hs
    rcases hinf : Infer.inferBucketFromPfx key p with _ | ⟨b0, sk0⟩
    · simp only [Infer.resolveBucketAndSchemaKey, Option.orElse, hinf]
    · obtain ⟨hp1, hp2, _, _⟩ :=
        (Infer.inferBucketFromPfx_spec key p).1 b0 sk0 hinf
      exact absurd ⟨hp1, hp2⟩ (hnone b0)
  · intro q
    simp [Infer.stripPfx, List.isPrefixOf_iff_prefix]

/-- Witness for C7 at concrete inputs: an explicit client bucket directive
wins and strips the client prefix; with no directives the longest matching
prefix resolves the bucket; a key equal to its prefix is kept whole. -/
theorem claim_C7_witness :
    Infer.resolveBucketAndSchemaKey "NEXT_PUBLIC_API_URL".data
        ⟨"SRV_".data, "NEXT_PUBLIC_".data, "".data⟩ (some Bucket.client) none
      = (Bucket.client, "API_URL".data) ∧
    Infer.stripPfx "SRV_".data "SRV_".data = "SRV_".data := by
  constructor
  · rw [(claim_C7 "NEXT_PUBLIC_API_URL".data
      ⟨"SRV_".data, "NEXT_PUBLIC_".data, "".data⟩ (some Bucket.client) none).1
      Bucket.client rfl]
    decide
  · exact (claim_C7 [] ⟨[], [], []⟩ none none).2.2.2.2 "SRV_".data

namespace Engine

theorem containsKey_eq_false_iff (l : List (String × α)) (k : String) :
    containsKey l k = false ↔ ∀ v, (k, v) ∉ l := by
  simp only [containsKey, List.any_eq_false, decide_eq_true_eq]
  constructor
  · intro h v hv
    exact h _ hv rfl
  · intro h kv hkv hk
    rcases kv with ⟨k1, v1⟩
    cases hk
    exact h v1 hkv

theorem lookupKey_eq_none_of_not_containsKey (l : List (String × α)) (k : String)
    (h : containsKey l k = false) : lookupKey l k = none := by
  have hfind : l.find? (fun kv => kv.1 = k) = none := by
    refine List.find?_eq_none.mpr ?_
    intro kv hkv
    simp only [containsKey, List.any_eq_false] at h
    exact h kv hkv
  simp [lookupKey, hfind]

/-- `parseSchemaValues` error lines: exactly one formatted line, in
schema order, per key whose individual decode fails. -/
theorem parseSchemaValues_errors (schema : SchemaDict) (o : ParseOptions) :
    (parseSchemaValues schema o).errors =
      schema.filterMap (fun kv =>
        match decodeOf o kv with
        | .error d => some (envKeyOf o kv.1 ++ ": " ++ d)
        | .ok _ => none) := by
  induction schema with
  | nil => rfl
  | cons kv rest ih =>
      rcases kv with ⟨key, validator⟩
      have hd : validator (recGet o.runtimeEnv
          (prefixOfCat o.prefixMap (getKeyCategory key o.client o.shared) ++ key))
        = decodeOf o (key, validator) := rfl
      simp only [parseSchemaValues, hd, List.filterMap_cons]
      rcases h : decodeOf o (key, validator) with e | v
      · simp only [h, envKeyOf]
        simp only [envKeyOf] at ih
        exact congrArg _ ih
      · simp only [h]
        exact ih

/-- `parseSchemaValues` values: one entry, in schema order, per key whose
individual decode succeeds, carrying the auto-redact-wrapped value. -/
theorem parseSchemaValues_values (schema : SchemaDict) (o : ParseOptions) :
    (parseSchemaValues schema o).values =
      schema.filterMap (fun kv =>
        match decodeOf o kv with
        | .ok v => some (kv.1, autoWrap o (envKeyOf o kv.1) v)
        | .error _ => none) := by
  induction schema with
  | nil => rfl
  | cons kv rest ih =>
      rcases kv with ⟨key, validator⟩
      have hd : validator (recGet o.runtimeEnv
          (prefixOfCat o.prefixMap (getKeyCategory key o.client o.shared) ++ key))
        = decodeOf o (key, validator) := rfl
      simp only [parseSchemaValues, hd, List.filterMap_cons]
      rcases h : decodeOf o (key, validator) with e | v
      · simp only [h]
        exact ih
      · simp only [h]
        exact congrArg _ ih

/-- C2: validation is exhaustive per call — the error list has exactly
one formatted line `prefixedKey: detail`, in declaration order, per key
whose individual decode fails (so it never stops at the first failure);
when no key fails, every declared key receives a value; and
`raiseValidationErrors` raises the full ordered list as the engine
validation-error type, normalizing anything the optional
`onValidationError` callback throws into that same type. -/
theorem claim_C2 (schema : SchemaDict) (o : ParseOptions) :
    ((parseSchemaValues schema o).errors =
      schema.filterMap (fun kv =>
        match decodeOf o kv with
        | .error d => some (envKeyOf o kv.1 ++ ": " ++ d)
        | .ok _ => none)) ∧
    ((parseSchemaValues schema o).errors = [] →
      ∀ k, k ∈ keysOf schema →
        (lookupKey (parseSchemaValues schema o).values k).isSome = true) ∧
    (∀ errors, errors ≠ [] →
      raiseValidationErrors errors none = .error (.envValidation errors)) ∧
    (∀ errors cb, errors ≠ [] →
      (∀ u, cb errors = .ok u →
        raiseValidationErrors errors (some cb) = .error (.envValidation errors)) ∧
      (∀ e, cb errors = .error e →
        raiseValidationErrors errors (some cb)
          = .error (.envValidation (normalizeLines e)))) ∧
    (∀ cb, raiseValidationErrors [] cb = .ok ()) := by
  refine ⟨parseSchemaValues_errors schema o, ?_, ?_, ?_, ?_⟩
  · intro hnoerr k hk
    induction schema with
    | nil => simp [keysOf] at hk
    | cons kv rest ih =>
        rcases kv with ⟨key, validator⟩
        simp only [parseSchemaValues] at hnoerr ⊢
        rcases h : validator (recGet o.runtimeEnv
            (prefixOfCat o.prefixMap (getKeyCategory key o.client o.shared) ++ key))
          with e | v
        · rw [h] at hnoerr
          simp at hnoerr
        · rw [h] at hnoerr
          simp only at hnoerr
          dsimp only
          simp only [keysOf, List.map_cons, List.mem_cons] at hk
          by_cases hkey : key = k
          · subst hkey
            simp [lookupKey]
          · rcases hk with hk | hk
            · exact absurd hk.symm hkey
            · have hres := ih hnoerr hk
              simp only [lookupKey, List.find?_cons] at hres ⊢
              have hd2 : decide (key = k) = false := by simp [hkey]
              rw [hd2]
              exact hres
  · intro errors herr
    simp [raiseValidationErrors, herr]
  · intro errors cb herr
    constructor
    · intro u hcb
      simp [raiseValidationErrors, herr, hcb]
    · intro e hcb
      simp [raiseValidationErrors, herr, hcb]
  · intro cb
    simp [raiseValidationErrors]

/-- Witness for C2: a two-key schema with one failing key yields exactly
that key's formatted error line; an all-passing schema supplies a value
for its key; a callback that throws a foreign error is normalized. -/
theorem claim_C2_witness :
    (parseSchemaValues
        [("GOOD", fun _ => .ok (.str "v")), ("BAD", fun _ => .error "boom")]
        ⟨[], [], [], ⟨"", "", ""⟩, none⟩).errors = ["BAD: boom"] ∧
    (lookupKey (parseSchemaValues [("GOOD", fun _ => .ok (.str "v"))]
        ⟨[], [], [], ⟨"", "", ""⟩, none⟩).values "GOOD").isSome = true ∧
    raiseValidationErrors ["BAD: boom"]
        (some (fun _ => .error (.foreign "callback exploded")))
      = .error (.envValidation ["callback exploded"]) := by
  refine ⟨?_, ?_, ?_⟩
  · rw [(claim_C2 [("GOOD", fun _ => .ok (.str "v")), ("BAD", fun _ => .error "boom")]
      ⟨[], [], [], ⟨"", "", ""⟩, none⟩).1]
    rfl
  · exact (claim_C2 [("GOOD", fun _ => .ok (.str "v"))]
      ⟨[], [], [], ⟨"", "", ""⟩, none⟩).2.1 rfl "GOOD" (by simp [keysOf])
  · exact (((claim_C2 [] ⟨[], [], [], ⟨"", "", ""⟩, none⟩).2.2.2.1
      ["BAD: boom"] (fun _ => .error (.foreign "callback exploded"))
      (by simp)).2 (.foreign "callback exploded") rfl)

theorem containsKey_iff_mem_keysOf (l : List (String × α)) (k : String) :
    containsKey l k = true ↔ k ∈ keysOf l := by
  simp only [containsKey, keysOf, List.any_eq_true, decide_eq_true_eq,
    List.mem_map]

theorem mem_createClientBlockedKeys (m : EnvMeta) (k : String) :
    k ∈ createClientBlockedKeys m ↔
      (k ∈ m.serverKeys ∧ k ∉ m.clientKeys ∧ k ∉ m.sharedKeys) := by
  simp [createClientBlockedKeys, List.mem_filter]

/-- C3: a key in the aggregate server key set (own plus inherited via
extends) and in neither the aggregate client nor shared key set is
client-blocked in any environment `buildEnv` produces: reading it off
the server raises the client-access error naming the key, while reading
it on the server never does. -/
theorem claim_C3 (opts : Options) (env : ReadOnlyEnv)
    (hbuild : buildEnv opts = .ok env) (key : String)
    (hs : key ∈ (aggregateEnvKeys opts.server opts.client opts.shared
      opts.extendsEnvs).serverKeys)
    (hc : key ∉ (aggregateEnvKeys opts.server opts.client opts.shared
      opts.extendsEnvs).clientKeys)
    (hsh : key ∉ (aggregateEnvKeys opts.server opts.client opts.shared
      opts.extendsEnvs).sharedKeys) :
    (env.isServer = false → envGet env key = .error (.clientAccess key)) ∧
    (env.isServer = true → envGet env key = .ok (lookupKey env.values key)) := by
  simp only [buildEnv] at hbuild
  split at hbuild
  · exact absurd hbuild (by simp)
  · rename_i hraise
    injection hbuild with hb
    subst hb
    have hblocked : key ∈ createClientBlockedKeys (aggregateEnvKeys opts.server
        opts.client opts.shared opts.extendsEnvs) :=
      (mem_createClientBlockedKeys _ key).mpr ⟨hs, hc, hsh⟩
    constructor
    · intro hfalse
      simp only [createReadOnlyEnv] at hfalse ⊢
      simp [envGet, hfalse, hblocked, createReadOnlyEnv]
    · intro htrue
      simp only [createReadOnlyEnv] at htrue ⊢
      simp [envGet, htrue, createReadOnlyEnv]

/-- Witness for C3: the concrete client-side build blocks the server-only
key SECRET and a server-side build does not. -/
theorem claim_C3_witness :
    envGet (createReadOnlyEnv [] false ["SECRET"]) "SECRET"
      = .error (.clientAccess "SECRET") ∧
    envGet (createReadOnlyEnv [("SECRET", Val.str "v")] true ["SECRET"]) "SECRET"
      = .ok (some (Val.str "v")) := by
  constructor
  · exact (claim_C3 cOptsC3 (createReadOnlyEnv [] false ["SECRET"]) rfl "SECRET"
      (by decide) (by decide) (by decide)).1 rfl
  · have h := (claim_C3 { cOptsC3 with isServer := some true }
      (createReadOnlyEnv [("SECRET", Val.str "v")] true ["SECRET"]) rfl "SECRET"
      (by decide) (by decide) (by decide)).2 rfl
    rw [h]
    rfl

theorem find_append_split {β : Type u} (l1 l2 : List β) (p : β → Bool) :
    (l1 ++ l2).find? p =
      match l1.find? p with
      | some x => some x
      | none => l2.find? p := by
  induction l1 with
  | nil => simp
  | cons x rest ih =>
      rcases h : p x with _ | _
      · simp [List.find?_cons, h, ih]
      · simp [List.find?_cons, h]

theorem lookupKey_map_upd (t : List (String × α)) (k k2 : String) (v : α)
    (h : k2 ≠ k) :
    lookupKey (t.map (fun kv => if kv.1 = k then (k, v) else kv)) k2
      = lookupKey t k2 := by
  induction t with
  | nil => rfl
  | cons kv rest ih =>
      by_cases h1 : kv.1 = k
      · have e1 : (decide ((k, v).1 = k2)) = false := by simp [Ne.symm h]
        have e2 : (decide (kv.1 = k2)) = false := by simp [h1, Ne.symm h]
        simp only [List.map_cons, if_pos h1, lookupKey, List.find?_cons, e1, e2]
        exact ih
      · simp only [List.map_cons, if_neg h1, lookupKey, List.find?_cons]
        rcases h2 : (decide (kv.1 = k2)) with _ | _
        · exact ih
        · rfl

theorem lookupKey_objUpd_self (t : List (String × α)) (k : String) (v : α) :
    lookupKey (objUpd t k v) k = some v := by
  simp only [objUpd]
  rcases hc : containsKey t k with _ | _
  · simp only [Bool.false_eq_true, if_false, lookupKey]
    rw [find_append_split]
    have hnone : t.find? (fun kv => decide (kv.1 = k)) = none := by
      refine List.find?_eq_none.mpr ?_
      intro kv hkv
      simp only [containsKey, List.any_eq_false] at hc
      exact hc kv hkv
    simp [hnone]
  · simp only [if_pos]
    induction t with
    | nil => simp [containsKey] at hc
    | cons kv rest ih =>
        by_cases h1 : kv.1 = k
        · simp [lookupKey, List.find?_cons, if_pos h1]
        · have e1 : (decide (kv.1 = k)) = false := by simp [h1]
          simp only [List.map_cons, if_neg h1, lookupKey, List.find?_cons, e1]
          have hc2 : containsKey rest k = true := by
            simp only [containsKey, List.any_cons, e1, Bool.false_or] at hc
            exact hc
          exact ih hc2

theorem lookupKey_objUpd_ne (t : List (String × α)) (k k2 : String) (v : α)
    (h : k2 ≠ k) :
    lookupKey (objUpd t k v) k2 = lookupKey t k2 := by
  simp only [objUpd]
  rcases hc : containsKey t k with _ | _
  · simp only [Bool.false_eq_true, if_false, lookupKey]
    rw [find_append_split]
    rcases hfind : t.find? (fun kv => decide (kv.1 = k2)) with _ | x
    · have e1 : (decide ((k, v).1 = k2)) = false := by simp [Ne.symm h]
      simp [hfind, List.find?_cons, e1]
    · simp [hfind]
  · simp only [if_pos]
    exact lookupKey_map_upd t k k2 v h

theorem lookupKey_assignInto (t : Rec) (src : Rec) (k : String)
    (hsrc : (keysOf src).Nodup) :
    lookupKey (assignInto t src) k =
      if containsKey src k then lookupKey src k else lookupKey t k := by
  induction src generalizing t with
  | nil => simp [assignInto, containsKey]
  | cons kv rest ih =>
      rcases kv with ⟨k0, v0⟩
      simp only [keysOf, List.map_cons, List.nodup_cons] at hsrc
      have hstep : assignInto t ((k0, v0) :: rest)
          = assignInto (objUpd t k0 v0) rest := rfl
      rw [hstep, ih _ (by simp [keysOf, hsrc.2])]
      by_cases hk : k = k0
      · subst hk
        have hnotin : containsKey rest k = false := by
          rcases hcon : containsKey rest k with _ | _
          · rfl
          · exact absurd ((containsKey_iff_mem_keysOf rest k).mp hcon)
              (by simpa [keysOf] using hsrc.1)
        have hhead : containsKey ((k, v0) :: rest) k = true := by
          simp [containsKey]
        simp only [hnotin, Bool.false_eq_true, if_false, hhead, if_pos]
        rw [lookupKey_objUpd_self]
        simp [lookupKey, List.find?_cons]
      · have e1 : (decide (k0 = k)) = false := by simp [Ne.symm hk]
        have hcons : containsKey ((k0, v0) :: rest) k = containsKey rest k := by
          simp [containsKey, List.any_cons, e1]
        rw [lookupKey_objUpd_ne _ _ _ _ hk, hcons]
        rcases hr : containsKey rest k with _ | _
        · simp
        · simp only [if_pos]
          simp [lookupKey, List.find?_cons, e1]

theorem lookupKey_foldl_assignInto (results : List Rec) (acc : Rec) (k : String)
    (hr : ∀ r ∈ results, (keysOf r).Nodup) :
    lookupKey (results.foldl assignInto acc) k =
      match results.reverse.find? (fun r => containsKey r k) with
      | some r => lookupKey r k
      | none => lookupKey acc k := by
  induction results generalizing acc with
  | nil => simp
  | cons r rest ih =>
      simp only [List.foldl_cons, List.reverse_cons]
      rw [ih (assignInto acc r) (fun r2 h2 => hr r2 (List.mem_cons_of_mem r h2))]
      rw [find_append_split]
      rcases hfind : rest.reverse.find? (fun r => containsKey r k) with _ | r2
      · simp only
        rw [lookupKey_assignInto acc r k (hr r (List.mem_cons_self r rest))]
        rcases hcr : containsKey r k with _ | _
        · simp [List.find?_cons, hcr]
        · simp [List.find?_cons, hcr]
      · simp [hfind]

/-- C4: the merged raw environment built from the base environment and
the resolver results (in declared array order) resolves every key to the
value of the latest resolver that carries the key, falling back to the
base environment when no resolver does — so a later resolver always wins
a key collision and any resolver value overrides the base. -/
theorem claim_C4 (base : Rec) (results : List Rec) (k : String)
    (hb : (keysOf base).Nodup) (hr : ∀ r ∈ results, (keysOf r).Nodup) :
    (lookupKey (assignRecords base results) k =
      match results.reverse.find? (fun r => containsKey r k) with
      | some r => lookupKey r k
      | none => lookupKey base k) ∧
    (∀ rs1 r rs2, results = rs1 ++ r :: rs2 → containsKey r k = true →
      (∀ r2 ∈ rs2, containsKey r2 k = false) →
      lookupKey (assignRecords base results) k = lookupKey r k) ∧
    ((∀ r ∈ results, containsKey r k = false) →
      lookupKey (assignRecords base results) k = lookupKey base k) := by
  have hmain : lookupKey (assignRecords base results) k =
      match results.reverse.find? (fun r => containsKey r k) with
      | some r => lookupKey r k
      | none => lookupKey base k := by
    simp only [assignRecords]
    rw [lookupKey_foldl_assignInto results (assignInto [] base) k hr]
    rcases hfind : results.reverse.find? (fun r => containsKey r k) with _ | r2
    · simp only
      rw [lookupKey_assignInto [] base k hb]
      rcases hcb : containsKey base k with _ | _
      · simp only [Bool.false_eq_true, if_false]
        rw [lookupKey_eq_none_of_not_containsKey base k hcb]
        rfl
      · simp
    · simp
  refine ⟨hmain, ?_, ?_⟩
  · intro rs1 r rs2 hsplit hcr hafter
    rw [hmain, hsplit]
    have hrev : (rs1 ++ r :: rs2).reverse = rs2.reverse ++ r :: rs1.reverse := by
      simp
    rw [hrev, find_append_split]
    have hnone : rs2.reverse.find? (fun r => containsKey r k) = none := by
      refine List.find?_eq_none.mpr ?_
      intro r2 h2
      simp [hafter r2 (List.mem_reverse.mp h2)]
    simp [hnone, List.find?_cons, hcr]
  · intro hnores
    rw [hmain]
    have hnone : results.reverse.find? (fun r => containsKey r k) = none := by
      refine List.find?_eq_none.mpr ?_
      intro r2 h2
      simp [hnores r2 (List.mem_reverse.mp h2)]
    simp [hnone]

/-- Witness for C4: with two resolvers both supplying A, the later one
wins; a key only in the base keeps its base value. -/
theorem claim_C4_witness :
    lookupKey (assignRecords cBase [cR1, cR2]) "A" = some (some "second") ∧
    lookupKey (assignRecords cBase [cR1, cR2]) "B" = some (some "b") := by
  constructor
  · rw [(claim_C4 cBase [cR1, cR2] "A" (by decide) (by decide)).1]
    decide
  · rw [(claim_C4 cBase [cR1, cR2] "B" (by decide) (by decide)).1]
    decide

theorem parseSchemaValues_lookup (schema : SchemaDict) (o : ParseOptions)
    (k : String) (vd : Validator) (v : Val)
    (hnodup : (keysOf schema).Nodup) (hmem : (k, vd) ∈ schema)
    (hdec : vd (recGet o.runtimeEnv (envKeyOf o k)) = .ok v) :
    lookupKey (parseSchemaValues schema o).values k
      = some (autoWrap o (envKeyOf o k) v) := by
  induction schema with
  | nil => simp at hmem
  | cons kv rest ih =>
      rcases kv with ⟨k0, vd0⟩
      simp only [keysOf, List.map_cons, List.nodup_cons] at hnodup
      rcases List.mem_cons.mp hmem with heq | hmem2
      · rw [Prod.mk.injEq] at heq
        obtain ⟨hk0, hvd0⟩ := heq
        subst hk0; subst hvd0
        simp only [parseSchemaValues]
        have hd : vd (recGet o.runtimeEnv
            (prefixOfCat o.prefixMap (getKeyCategory k o.client o.shared) ++ k))
          = .ok v := hdec
        rw [hd]
        simp [lookupKey, List.find?_cons, autoWrap, envKeyOf]
      · have hkrest : k ∈ keysOf rest := by
          simp only [keysOf, List.mem_map]
          exact ⟨(k, vd), hmem2, rfl⟩
        have hk0ne : k0 ≠ k := by
          intro h
          subst h
          exact hnodup.1 hkrest
        simp only [parseSchemaValues]
        rcases h : vd0 (recGet o.runtimeEnv
            (prefixOfCat o.prefixMap (getKeyCategory k0 o.client o.shared) ++ k0))
          with e | v0
        · exact ih (by simpa [keysOf] using hnodup.2) hmem2
        · simp only [lookupKey, List.find?_cons]
          have e1 : (decide (k0 = k)) = false := by simp [hk0ne]
          rw [e1]
          exact ih (by simpa [keysOf] using hnodup.2) hmem2

theorem mem_autoRedactKeysOf (results : List Rec) (ek : String) :
    ek ∈ autoRedactKeysOf results ↔ ∃ r ∈ results, ∃ s, (ek, some s) ∈ r := by
  simp only [autoRedactKeysOf, List.mem_flatMap, List.mem_map, List.mem_filter]
  constructor
  · rintro ⟨r, hr, kv, ⟨hkv, hsome⟩, hfst⟩
    rcases kv with ⟨k1, v1⟩
    rcases v1 with _ | s
    · simp at hsome
    · cases hfst
      exact ⟨r, hr, s, hkv⟩
  · rintro ⟨r, hr, s, hkv⟩
    exact ⟨r, hr, (ek, some s), ⟨hkv, rfl⟩, rfl⟩

/-- C5: with auto-redaction active (the key set built by `createEnv` from
the resolver results), a validated key whose prefixed name received a
defined value from at least one resolver always ends up redacted; a key
no resolver supplied a defined value for keeps its decoded value
unchanged; and an already-redacted decoded value is never wrapped a
second time. -/
theorem claim_C5 (schema : SchemaDict) (o : ParseOptions) (results : List Rec)
    (hauto : o.autoRedactKeys = some (autoRedactKeysOf results))
    (k : String) (vd : Validator) (v : Val)
    (hnodup : (keysOf schema).Nodup) (hmem : (k, vd) ∈ schema)
    (hdec : vd (recGet o.runtimeEnv (envKeyOf o k)) = .ok v) :
    ((∃ r ∈ results, ∃ s, (envKeyOf o k, some s) ∈ r) →
      ∃ w, lookupKey (parseSchemaValues schema o).values k = some w ∧
        isRedacted w = true) ∧
    ((∀ r ∈ results, ∀ s, (envKeyOf o k, some s) ∉ r) →
      lookupKey (parseSchemaValues schema o).values k = some v) ∧
    (isRedacted v = true →
      lookupKey (parseSchemaValues schema o).values k = some v) := by
  have hlook := parseSchemaValues_lookup schema o k vd v hnodup hmem hdec
  refine ⟨?_, ?_, ?_⟩
  · intro hexists
    have hmemkeys : envKeyOf o k ∈ autoRedactKeysOf results :=
      (mem_autoRedactKeysOf results (envKeyOf o k)).mpr hexists
    refine ⟨autoWrap o (envKeyOf o k) v, hlook, ?_⟩
    simp only [autoWrap, hauto]
    rcases hred : isRedacted v
    · simp [hmemkeys, hred, redactedMake, isRedacted]
    · simp [hmemkeys, hred]
  · intro hnone
    have hnotmem : envKeyOf o k ∉ autoRedactKeysOf results := by
      intro hmem2
      rcases (mem_autoRedactKeysOf results (envKeyOf o k)).mp hmem2
        with ⟨r, hr, s, hs⟩
      exact hnone r hr s hs
    rw [hlook]
    simp [autoWrap, hauto, hnotmem]
  · intro hred
    rw [hlook]
    simp [autoWrap, hred]

/-- Witness for C5: the resolver-supplied key SECRET is auto-redacted,
and a key with no resolver value keeps its decoded value. -/
theorem claim_C5_witness :
    (∃ w, lookupKey (parseSchemaValues [("SECRET", cStrValidator)]
        ⟨[], [], [], ⟨"", "", ""⟩, some (autoRedactKeysOf cResultsC5)⟩).values
      "SECRET" = some w ∧ isRedacted w = true) ∧
    lookupKey (parseSchemaValues [("OTHER", cStrValidator)]
        ⟨[], [], [], ⟨"", "", ""⟩, some (autoRedactKeysOf cResultsC5)⟩).values
      "OTHER" = some (.str "v") := by
  constructor
  · exact (claim_C5 [("SECRET", cStrValidator)]
      ⟨[], [], [], ⟨"", "", ""⟩, some (autoRedactKeysOf cResultsC5)⟩
      cResultsC5 rfl "SECRET" cStrValidator (.str "v")
      (by decide) (by simp) rfl).1
      ⟨[("SECRET", some "s3cr3t")], by simp [cResultsC5], "s3cr3t", by decide⟩
  · exact (claim_C5 [("OTHER", cStrValidator)]
      ⟨[], [], [], ⟨"", "", ""⟩, some (autoRedactKeysOf cResultsC5)⟩
      cResultsC5 rfl "OTHER" cStrValidator (.str "v")
      (by decide) (by simp) rfl).2.1
      (by intro r hr s hs
          simp only [cResultsC5, List.mem_singleton] at hr
          subst hr
          have h1 := List.mem_singleton.mp hs
          simp only [Prod.mk.injEq] at h1
          exact absurd h1.1 (by decide))

/-- C10: `safeCreateEnv` never throws and never produces a failing
effect — without resolvers it returns a success record when `createEnv`
succeeds and a failure record carrying the normalized validation error
when `createEnv` throws (and `createEnv` is always synchronous then);
with resolvers present the returned effect cannot fail, capturing
resolver and validation failures as failure-records in its success
value; foreign thrown values normalize into the validation-error
type. -/
theorem claim_C10 (opts : Options) :
    (opts.resolvers = none →
      (∃ r, createEnv opts = .sync r) ∧
      (∀ env, createEnv opts = .sync (.ok env) →
        safeCreateEnv opts = .inl (.ok env)) ∧
      (∀ e, createEnv opts = .sync (.error e) →
        safeCreateEnv opts = .inl (.err (normalizeLines e)))) ∧
    (∀ rs, opts.resolvers = some rs →
      (∀ env, createEnv opts = .eff (.ok env) →
        safeCreateEnv opts = .inr (.ok env)) ∧
      (∀ f, createEnv opts = .eff (.error f) →
        safeCreateEnv opts = .inr (.err f)) ∧
      (∀ env, createEnv opts = .sync (.ok env) →
        safeCreateEnv opts = .inr (.ok env)) ∧
      (∀ e, createEnv opts = .sync (.error e) →
        safeCreateEnv opts = .inr (.err (.validation (normalizeLines e))))) ∧
    (∀ l, normalizeLines (.envValidation l) = l) ∧
    (∀ m, normalizeLines (.foreign m) = [m]) := by
  refine ⟨?_, ?_, fun l => rfl, fun m => rfl⟩
  · intro hres
    refine ⟨?_, ?_, ?_⟩
    · by_cases hint : opts.introspectOnly
      · exact ⟨.ok .introspectStub, by simp [createEnv, hint]⟩
      · exact ⟨(buildEnv opts).map (fun e => .real e),
          by simp [createEnv, hint, hres]⟩
    · intro env h
      simp [safeCreateEnv, hres, h, syncPart]
    · intro e h
      simp [safeCreateEnv, hres, h, syncPart]
  · intro rs hres
    have hsome : opts.resolvers.isSome = true := by simp [hres]
    refine ⟨?_, ?_, ?_, ?_⟩
    · intro env h
      simp [safeCreateEnv, hsome, h]
    · intro f h
      simp [safeCreateEnv, hsome, h]
    · intro env h
      simp [safeCreateEnv, hsome, h]
    · intro e h
      simp [safeCreateEnv, hsome, h]

/-- Witness for C10: the concrete successful build is returned as a
success record, and a failing resolver is captured as a failure record
in the effect's success value. -/
theorem claim_C10_witness :
    safeCreateEnv cOptsC10
      = .inl (.ok (.real (createReadOnlyEnv [("A", Val.str "v")] true ["A"]))) ∧
    safeCreateEnv { cOptsC10 with resolvers := some [.error ⟨"aws", "down"⟩] }
      = .inr (.err (.resolver ⟨"aws", "down"⟩)) := by
  constructor
  · exact ((claim_C10 cOptsC10).1 rfl).2.1
      (.real (createReadOnlyEnv [("A", Val.str "v")] true ["A"])) rfl
  · exact (((claim_C10 { cOptsC10 with
        resolvers := some [.error ⟨"aws", "down"⟩] }).2.1
      [.error ⟨"aws", "down"⟩] rfl).2.1 (.resolver ⟨"aws", "down"⟩) rfl)

/-- C9: every environment object built by `createReadOnlyEnv` rejects
every property write, delete, and redefinition with a TypeError, for
every key and value, on server and client alike. -/
theorem claim_C9 (values : List (String × Val)) (isServer : Bool)
    (blocked : List String) (k : String) (v : Val) :
    envSet (createReadOnlyEnv values isServer blocked) k v
        = .error (.typeError "Environment object is read-only") ∧
    envDelete (createReadOnlyEnv values isServer blocked) k
        = .error (.typeError "Environment object is read-only") ∧
    envDefineProperty (createReadOnlyEnv values isServer blocked) k v
        = .error (.typeError "Environment object is read-only") :=
  ⟨rfl, rfl, rfl⟩

end Engine

/-- C6 counterexample: `withDefault(port, 3000)` decodes the
schema-accepted value "3000" to 3000, which *is* the default — so
"decoding any value that schema itself accepts never yields d" fails;
and an inner schema that itself accepts undefined (a nested
`withDefault`) wins over the outer default when decoding undefined, so
"decoding undefined always yields d" also fails for such inner
schemas. -/
theorem claim_C6_counterexample :
    Schemas.portDec (some "3000") = .ok 3000 ∧
    Schemas.withDefault Schemas.portDec 3000 (some "3000") = .ok 3000 ∧
    Schemas.withDefault (Schemas.withDefault Schemas.requiredStringDec "x") "y"
        none = .ok "x" := by
  refine ⟨?_, ?_, ?_⟩ <;> rfl

/-- C6 (amended): `withDefault(schema, d)` decoding undefined yields `d`
whenever the inner schema itself rejects undefined (the union tries the
inner schema first, so an inner schema that decodes undefined
successfully takes precedence); decoding a defined value the schema
accepts yields the schema's own decoded output — which coincides with
`d` exactly when that output equals the default. -/
theorem claim_C6 {α : Type} (s : Schemas.Dec α) (d : α) :
    ((∃ e, s none = .error e) → Schemas.withDefault s d none = .ok d) ∧
    (∀ v a, s (some v) = .ok a → Schemas.withDefault s d (some v) = .ok a) ∧
    (∀ a, s none = .ok a → Schemas.withDefault s d none = .ok a) := by
  refine ⟨?_, ?_, ?_⟩
  · rintro ⟨e, he⟩
    simp [Schemas.withDefault, Schemas.undefinedOr, he, Except.map]
  · intro v a ha
    simp [Schemas.withDefault, Schemas.undefinedOr, ha, Except.map]
  · intro a ha
    simp [Schemas.withDefault, Schemas.undefinedOr, ha, Except.map]

/-- Witness for C6 (amended) at the port schema: undefined decodes to the
default 3000, and the accepted value "8080" decodes to 8080. -/
theorem claim_C6_witness :
    Schemas.withDefault Schemas.portDec 3000 none = .ok 3000 ∧
    Schemas.withDefault Schemas.portDec 3000 (some "8080") = .ok 8080 := by
  constructor
  · exact (claim_C6 Schemas.portDec 3000).1
      ⟨"Expected string, actual undefined", rfl⟩
  · exact (claim_C6 Schemas.portDec 3000).2.1 "8080" 8080 (by rfl)

namespace Codec

theorem head?_mem {α : Type u} {l : List α} {c : α} (h : l.head? = some c) :
    c ∈ l := by
  cases l with
  | nil => simp at h
  | cons x t =>
      simp only [List.head?_cons, Option.some.injEq] at h
      subst h
      exact List.mem_cons_self _ _

theorem getLast?_mem {α : Type u} {l : List α} {c : α} (h : l.getLast? = some c) :
    c ∈ l := by
  rw [← List.head?_reverse] at h
  exact List.mem_reverse.mp (head?_mem h)

theorem trimLeft_eq_of_ne_ws (l : Str)
    (h : ∀ c, l.head? = some c → jsWhitespace c = false) : trimLeft l = l := by
  cases l with
  | nil => rfl
  | cons c t => simp [trimLeft, List.dropWhile_cons, h c rfl]

theorem trimRight_eq_of_ne_ws (l : Str)
    (h : ∀ c, l.getLast? = some c → jsWhitespace c = false) : trimRight l = l := by
  unfold trimRight
  rw [trimLeft_eq_of_ne_ws]
  · exact l.reverse_reverse
  · intro c hc
    apply h
    rwa [List.head?_reverse] at hc

theorem trim_eq_of_ne_ws (l : Str)
    (h1 : ∀ c, l.head? = some c → jsWhitespace c = false)
    (h2 : ∀ c, l.getLast? = some c → jsWhitespace c = false) : trim l = l := by
  unfold trim
  rw [trimLeft_eq_of_ne_ws l h1, trimRight_eq_of_ne_ws l h2]

theorem trim_eq_of_all_ne_ws (l : Str)
    (h : ∀ c ∈ l, jsWhitespace c = false) : trim l = l :=
  trim_eq_of_ne_ws l (fun c hc => h c (head?_mem hc))
    (fun c hc => h c (getLast?_mem hc))

theorem trimLeft_eq_self_of_trim (l : Str) (hl : trim l = l) : trimLeft l = l := by
  have h1 : (trim l).length ≤ (trimLeft l).length := by
    unfold trim trimRight
    calc (trimLeft (trimLeft l).reverse).reverse.length
        = (trimLeft (trimLeft l).reverse).length := by rw [List.length_reverse]
      _ ≤ (trimLeft l).reverse.length := (List.dropWhile_suffix _).length_le
      _ = (trimLeft l).length := List.length_reverse _
  have h2 : (trimLeft l).length ≤ l.length := (List.dropWhile_suffix _).length_le
  have h3 : (trimLeft l).length = l.length := by
    rw [hl] at h1
    omega
  exact (List.dropWhile_suffix _).eq_of_length h3

theorem trim_head_not_ws (l : Str) (hl : trim l = l) :
    ∀ c, l.head? = some c → jsWhitespace c = false := by
  intro c hc
  have hleft := trimLeft_eq_self_of_trim l hl
  cases l with
  | nil => simp at hc
  | cons c0 t =>
      simp only [List.head?_cons, Option.some.injEq] at hc
      rw [← hc]
      rcases hw : jsWhitespace c0 with _ | _
      · rfl
      · exfalso
        have hdrop : trimLeft (c0 :: t) = trimLeft t := by
          simp [trimLeft, List.dropWhile_cons, hw]
        rw [hdrop] at hleft
        have hlen := congrArg List.length hleft
        have hle : (trimLeft t).length ≤ t.length :=
          (List.dropWhile_suffix _).length_le
        simp only [trimLeft] at hlen hle
        simp at hlen
        omega

theorem trimRight_eq_self_of_trim (l : Str) (hl : trim l = l) : trimRight l = l := by
  have hleft := trimLeft_eq_self_of_trim l hl
  unfold trim at hl
  rwa [hleft] at hl

theorem trim_last_not_ws (l : Str) (hl : trim l = l) :
    ∀ c, l.getLast? = some c → jsWhitespace c = false := by
  intro c hc
  have hright := trimRight_eq_self_of_trim l hl
  unfold trimRight at hright
  have hrev : trimLeft l.reverse = l.reverse := by
    have := congrArg List.reverse hright
    rwa [List.reverse_reverse] at this
  have hrevtrim : trim l.reverse = l.reverse := by
    unfold trim
    rw [hrev]
    apply trimRight_eq_of_ne_ws
    intro c2 hc2
    rw [List.getLast?_reverse] at hc2
    exact trim_head_not_ws l hl c2 hc2
  apply trim_head_not_ws l.reverse hrevtrim
  rwa [List.head?_reverse]

theorem splitLines_cons_other (c : Char) (xs : Str) (h1 : c ≠ '\r')
    (h2 : c ≠ '\n') :
    splitLines (c :: xs) =
      match splitLines xs with
      | [] => [[c]]
      | l :: ls => (c :: l) :: ls := by
  rw [splitLines.eq_def]
  split
  · simp_all
  · rename_i heq
    rw [List.cons.injEq] at heq
    exact absurd heq.1 h1
  · rename_i heq
    rw [List.cons.injEq] at heq
    exact absurd heq.1 h2
  · rename_i c2 rest2 hne2 hne3 h4
    rw [List.cons.injEq] at h4
    rw [← h4.1, ← h4.2]

theorem splitLines_line (l t : Str) (h : ∀ c ∈ l, c ≠ '\n' ∧ c ≠ '\r') :
    splitLines (l ++ '\n' :: t) = l :: splitLines t := by
  induction l with
  | nil => rfl
  | cons c l2 ih =>
      have hc := h c (List.mem_cons_self _ _)
      rw [List.cons_append,
        splitLines_cons_other c (l2 ++ '\n' :: t) hc.2 hc.1,
        ih (fun c2 hc2 => h c2 (List.mem_cons_of_mem _ hc2))]

theorem splitLines_join (ls : List Str) (hne : ls ≠ [])
    (h : ∀ l ∈ ls, ∀ c ∈ l, c ≠ '\n' ∧ c ≠ '\r') :
    splitLines (joinLines ls) = ls ++ [[]] := by
  induction ls with
  | nil => exact absurd rfl hne
  | cons l rest ih =>
      cases rest with
      | nil =>
          rw [show joinLines [l] = l ++ '\n' :: [] from rfl,
            splitLines_line l [] (h l (List.mem_cons_self _ _))]
          rfl
      | cons l2 rest2 =>
          rw [show joinLines (l :: l2 :: rest2) = l ++ '\n' :: joinLines (l2 :: rest2)
              from rfl,
            splitLines_line l _ (h l (List.mem_cons_self _ _)),
            ih (by simp) (fun x hx => h x (List.mem_cons_of_mem _ hx))]
          rfl

theorem splitComma_no_comma (v : Str) (h : ',' ∉ v) : splitComma v = [v] := by
  induction v with
  | nil => rfl
  | cons c t ih =>
      have hc : c ≠ ',' := fun he => h (he ▸ List.mem_cons_self _ _)
      rw [splitComma]
      simp only [if_neg hc]
      rw [ih (fun hm => h (List.mem_cons_of_mem _ hm))]

theorem splitComma_item (v t : Str) (h : ',' ∉ v) :
    splitComma (v ++ ',' :: t) = v :: splitComma t := by
  induction v with
  | nil => simp [splitComma]
  | cons c v2 ih =>
      have hc : c ≠ ',' := fun he => h (he ▸ List.mem_cons_self _ _)
      rw [List.cons_append, splitComma]
      simp only [if_neg hc]
      rw [ih (fun hm => h (List.mem_cons_of_mem _ hm))]

theorem splitComma_join (vs : List Str) (hne : vs ≠ [])
    (h : ∀ v ∈ vs, ',' ∉ v) :
    splitComma (joinComma vs) = vs := by
  induction vs with
  | nil => exact absurd rfl hne
  | cons v rest ih =>
      cases rest with
      | nil =>
          rw [show joinComma [v] = v from rfl,
            splitComma_no_comma v (h v (List.mem_cons_self _ _))]
      | cons v2 rest2 =>
          rw [show joinComma (v :: v2 :: rest2) = v ++ ',' :: joinComma (v2 :: rest2)
              from rfl,
            splitComma_item v _ (h v (List.mem_cons_self _ _)),
            ih (by simp) (fun x hx => h x (List.mem_cons_of_mem _ hx))]

theorem head?_joinComma (v : Str) (vs : List Str) (hv : v ≠ []) :
    (joinComma (v :: vs)).head? = v.head? := by
  cases vs with
  | nil => rfl
  | cons v2 rest =>
      rw [show joinComma (v :: v2 :: rest) = v ++ ',' :: joinComma (v2 :: rest)
          from rfl]
      cases v with
      | nil => exact absurd rfl hv
      | cons c t => rfl

theorem joinComma_ne_nil (v : Str) (vs : List Str) (hv : v ≠ []) :
    joinComma (v :: vs) ≠ [] := by
  intro hcon
  have := head?_joinComma v vs hv
  rw [hcon] at this
  cases v with
  | nil => exact hv rfl
  | cons c t => simp at this

theorem getLast?_joinComma (vs : List Str) (hne : vs ≠ [])
    (h : ∀ v ∈ vs, v ≠ []) :
    ∃ v ∈ vs, (joinComma vs).getLast? = v.getLast? := by
  induction vs with
  | nil => exact absurd rfl hne
  | cons v rest ih =>
      cases rest with
      | nil => exact ⟨v, List.mem_cons_self _ _, rfl⟩
      | cons v2 rest2 =>
          obtain ⟨w, hw, hlast⟩ := ih (by simp)
            (fun x hx => h x (List.mem_cons_of_mem _ hx))
          refine ⟨w, List.mem_cons_of_mem _ hw, ?_⟩
          have hj : joinComma (v2 :: rest2) ≠ [] :=
            joinComma_ne_nil v2 rest2 (h v2 (by simp))
          rw [show joinComma (v :: v2 :: rest2)
              = v ++ ',' :: joinComma (v2 :: rest2) from rfl]
          rw [List.getLast?_append_cons]
          rcases hx : joinComma (v2 :: rest2) with _ | ⟨c2, t2⟩
          · exact absurd hx hj
          · rw [hx] at hlast
            rw [List.getLast?_cons_cons, hlast]

theorem mem_joinComma (vs : List Str) (c : Char) (h : c ∈ joinComma vs) :
    c = ',' ∨ ∃ v ∈ vs, c ∈ v := by
  induction vs with
  | nil => simp [joinComma] at h
  | cons v rest ih =>
      cases rest with
      | nil =>
          right
          exact ⟨v, List.mem_cons_self _ _, h⟩
      | cons v2 rest2 =>
          rw [show joinComma (v :: v2 :: rest2)
              = v ++ ',' :: joinComma (v2 :: rest2) from rfl] at h
          rcases List.mem_append.mp h with h1 | h1
          · exact Or.inr ⟨v, List.mem_cons_self _ _, h1⟩
          · rcases List.mem_cons.mp h1 with h2 | h2
            · exact Or.inl h2
            · rcases ih h2 with h3 | ⟨w, hw, hcw⟩
              · exact Or.inl h3
              · exact Or.inr ⟨w, List.mem_cons_of_mem _ hw, hcw⟩

theorem splitTokensAux_no_at (s : Str) (hs : '@' ∉ s) :
    ∀ curr ws, splitTokensAux s curr ws = [curr ++ ws ++ s] := by
  induction s with
  | nil => intro curr ws; simp [splitTokensAux]
  | cons c rest ih =>
      intro curr ws
      have hc : c ≠ '@' := fun he => hs (he ▸ List.mem_cons_self _ _)
      have hrest : '@' ∉ rest := fun hm => hs (List.mem_cons_of_mem _ hm)
      rw [splitTokensAux]
      rcases hw : jsWhitespace c with _ | _
      · simp only [hw, Bool.false_eq_true, if_false]
        have : ¬ (c = '@' ∧ ws ≠ []) := fun hcon => hc hcon.1
        rw [if_neg this, ih hrest]
        simp
      · simp only [hw, if_pos]
        rw [ih hrest]
        simp

theorem splitDirectiveTokens_single (t : Str) (hat : '@' ∉ t)
    (htrim : trim ('@' :: t) = '@' :: t) :
    splitDirectiveTokens ('@' :: t) = ['@' :: t] := by
  unfold splitDirectiveTokens
  rw [splitTokensAux]
  have hws : jsWhitespace '@' = false := by decide
  rw [if_neg (by simp [hws]), if_neg (by simp)]
  rw [splitTokensAux_no_at t hat]
  rw [show ([] : Str) ++ [] ++ ['@'] ++ [] ++ t = '@' :: t from by simp]
  simp only [List.map_cons, List.map_nil]
  rw [htrim]
  simp

theorem takeWhile_break (l1 : Str) (y : Char) (l2 : Str) (p : Char → Bool)
    (h1 : ∀ x ∈ l1, p x = true) (h2 : p y = false) :
    (l1 ++ y :: l2).takeWhile p = l1 := by
  induction l1 with
  | nil => simp [List.takeWhile_cons, h2]
  | cons c t ih =>
      simp only [List.cons_append, List.takeWhile_cons,
        h1 c (List.mem_cons_self _ _), if_pos]
      rw [ih (fun x hx => h1 x (List.mem_cons_of_mem _ hx))]

theorem dropWhile_break (l1 : Str) (y : Char) (l2 : Str) (p : Char → Bool)
    (h1 : ∀ x ∈ l1, p x = true) (h2 : p y = false) :
    (l1 ++ y :: l2).dropWhile p = y :: l2 := by
  induction l1 with
  | nil => simp [List.dropWhile_cons, h2]
  | cons c t ih =>
      simp only [List.cons_append, List.dropWhile_cons,
        h1 c (List.mem_cons_self _ _), if_pos]
      exact ih (fun x hx => h1 x (List.mem_cons_of_mem _ hx))

theorem span_break (l1 : Str) (y : Char) (l2 : Str) (p : Char → Bool)
    (h1 : ∀ x ∈ l1, p x = true) (h2 : p y = false) :
    (l1 ++ y :: l2).span p = (l1, y :: l2) := by
  rw [List.span_eq_take_drop, takeWhile_break l1 y l2 p h1 h2,
    dropWhile_break l1 y l2 p h1 h2]

theorem map_trim_self (vs : List Str) (h : ∀ v ∈ vs, trim v = v) :
    vs.map trim = vs := by
  induction vs with
  | nil => rfl
  | cons v rest ih =>
      simp only [List.map_cons, h v (List.mem_cons_self _ _)]
      rw [ih (fun x hx => h x (List.mem_cons_of_mem _ hx))]

theorem tok_optional (n : Nat) :
    parseDirectiveToken "@optional".data n
      = .ok { emptyTokenResult with optional := some true } := rfl

theorem tok_noDefault (n : Nat) :
    parseDirectiveToken "@no-default".data n
      = .ok { emptyTokenResult with hasDefault := some false } := rfl

theorem tok_redacted (n : Nat) :
    parseDirectiveToken "@redacted".data n
      = .ok { emptyTokenResult with redacted := some true } := rfl

theorem tok_section_bare (b : Bucket) (n : Nat) :
    parseDirectiveToken ('@' :: bucketName b) n
      = .ok { emptyTokenResult with sectionBucket := some b } := by
  cases b <;> rfl

theorem tok_section_pfx (b : Bucket) (p : Str) (n : Nat) (hp : validPfxStr p = true) :
    parseDirectiveToken ('@' :: bucketName b ++ ' ' :: p) n
      = .ok { emptyTokenResult with sectionBucket := some b, sectionPfx := some p } := by
  have hpne : p ≠ [] := by
    rcases p with _ | _
    · simp [validPfxStr] at hp
    · simp
  have hpws : ∀ c ∈ p, jsWhitespace c = false := by
    intro c hc
    simp only [validPfxStr, Bool.and_eq_true, List.all_eq_true] at hp
    have := hp.2 c hc
    simp only [Bool.and_eq_true] at this
    simpa using this.1
  have htrimp : trim p = p := trim_eq_of_all_ne_ws p hpws
  have hname : ∀ x ∈ '@' :: bucketName b, (fun c => (c ≠ ' ' : Bool)) x = true := by
    cases b <;> decide
  have hbtrim : trim (bucketName b) = bucketName b := by
    cases b <;> decide
  rw [parseDirectiveToken]
  rw [if_neg (by simp)]
  rw [show ('@' :: bucketName b ++ ' ' :: p)
      = ('@' :: bucketName b) ++ ' ' :: p from rfl]
  rw [span_break ('@' :: bucketName b) ' ' p (fun c => (c ≠ ' ' : Bool))
    hname (by decide)]
  have hcond : ((' ' :: p : Str) = []) = False := by simp
  simp only [hcond, if_false, List.drop_succ_cons, List.drop_zero, hbtrim, htrimp]
  cases b <;> simp [bucketName, hpne, emptyTokenResult]

theorem validEnumValue_props (v : Str) (h : validEnumValue v = true) :
    v ≠ [] ∧ trim v = v ∧ ',' ∉ v ∧ '@' ∉ v ∧ '\n' ∉ v ∧ '\r' ∉ v := by
  simp only [validEnumValue, Bool.and_eq_true, List.all_eq_true,
    decide_eq_true_eq] at h
  obtain ⟨⟨h1, h2⟩, h3⟩ := h
  refine ⟨by simpa using h1, h2, ?_, ?_, ?_, ?_⟩
  · intro hm
    have := h3 ',' hm
    simp at this
  · intro hm
    have := h3 '@' hm
    simp at this
  · intro hm
    have := h3 '\n' hm
    simp at this
  · intro hm
    have := h3 '\r' hm
    simp at this

theorem tok_enum (vs : List Str) (n : Nat) (hne : vs ≠ [])
    (hval : ∀ v ∈ vs, validEnumValue v = true) :
    parseDirectiveToken ("@type enum ".data ++ joinComma vs) n
      = .ok { emptyTokenResult with
                type := some SchemaKind.stringEnum,
                stringEnumValues := some vs } := by
  have hvne : ∀ v ∈ vs, v ≠ [] := fun v hv => (validEnumValue_props v (hval v hv)).1
  have hvtrim : ∀ v ∈ vs, trim v = v :=
    fun v hv => (validEnumValue_props v (hval v hv)).2.1
  have hvcomma : ∀ v ∈ vs, ',' ∉ v :=
    fun v hv => (validEnumValue_props v (hval v hv)).2.2.1
  have hjoin_ne : joinComma vs ≠ [] := by
    cases vs with
    | nil => exact absurd rfl hne
    | cons v0 vs2 => exact joinComma_ne_nil v0 vs2 (hvne v0 (List.mem_cons_self _ _))
  have hjhead : ∀ c, (joinComma vs).head? = some c → jsWhitespace c = false := by
    intro c hc
    cases vs with
    | nil => exact absurd rfl hne
    | cons v0 vs2 =>
        rw [head?_joinComma v0 vs2 (hvne v0 (List.mem_cons_self _ _))] at hc
        exact trim_head_not_ws v0 (hvtrim v0 (List.mem_cons_self _ _)) c hc
  have hjlast : ∀ c, (joinComma vs).getLast? = some c → jsWhitespace c = false := by
    intro c hc
    obtain ⟨w, hw, hlast⟩ := getLast?_joinComma vs hne hvne
    rw [hlast] at hc
    exact trim_last_not_ws w (hvtrim w hw) c hc
  rw [show "@type enum ".data ++ joinComma vs
      = "@type".data ++ ' ' :: ("enum ".data ++ joinComma vs) from rfl]
  rw [parseDirectiveToken]
  rw [if_neg (by simp)]
  rw [span_break "@type".data ' ' ("enum ".data ++ joinComma vs)
    (fun c => (c ≠ ' ' : Bool)) (by decide) (by decide)]
  have hcond : ((' ' :: ("enum ".data ++ joinComma vs) : Str) = []) = False := by simp
  have htrimtype : trim "type".data = "type".data := by decide
  have htrimval : trim ("enum ".data ++ joinComma vs)
      = "enum ".data ++ joinComma vs := by
    refine trim_eq_of_ne_ws _ ?_ ?_
    · intro c hc
      rw [show ("enum ".data ++ joinComma vs : Str) = 'e' :: ("num ".data ++ joinComma vs)
          from rfl] at hc
      simp only [List.head?_cons, Option.some.injEq] at hc
      rw [← hc]
      decide
    · intro c hc
      rw [List.getLast?_append_of_ne_nil _ hjoin_ne] at hc
      exact hjlast c hc
  simp only [hcond, if_false, List.drop_succ_cons, List.drop_zero, htrimtype,
    htrimval]
  rw [if_neg (by decide), if_neg (by decide), if_neg (by decide)]
  simp only [eq_self_iff_true, if_true]
  rw [if_neg (show ¬(("enum ".data ++ joinComma vs : Str) = []) from by simp)]
  rw [if_pos (Or.inr (List.isPrefixOf_iff_prefix.mpr
    (List.prefix_append "enum ".data (joinComma vs))))]
  rw [show (("enum ".data ++ joinComma vs : Str).drop 4) = ' ' :: joinComma vs
      from rfl]
  have htrimraw : trim (' ' :: joinComma vs) = joinComma vs := by
    unfold trim
    have h1 : trimLeft (' ' :: joinComma vs) = trimLeft (joinComma vs) := by
      simp [trimLeft, List.dropWhile_cons, show jsWhitespace ' ' = true from by decide]
    rw [h1, trimLeft_eq_of_ne_ws _ hjhead, trimRight_eq_of_ne_ws _ hjlast]
  rw [htrimraw]
  rw [if_neg hjoin_ne]
  rw [splitComma_join vs hne hvcomma, map_trim_self vs hvtrim,
    List.filter_eq_self.mpr (fun v hv => by simp [hvne v hv])]
  rw [if_neg hne]

theorem group_of_single (text tok : Str) (n : Nat) (base : Directives)
    (tr : TokenResult)
    (hsplit : splitDirectiveTokens text = [tok])
    (htok : parseDirectiveToken tok n = .ok tr) :
    parseDirectiveGroup text n base = .ok (applyToken ⟨base, none, none⟩ tr) := by
  unfold parseDirectiveGroup
  rw [hsplit]
  simp only [List.foldlM, htok, bind, Except.bind, Except.pure]
  rfl

theorem keyStart_not_ws (c : Char) (h : isKeyStart c = true) :
    jsWhitespace c = false := by
  simp only [isKeyStart, Bool.or_eq_true, Char.isAlpha, Char.isUpper,
    Char.isLower, Bool.or_eq_true, Bool.and_eq_true, decide_eq_true_eq,
    beq_iff_eq] at h
  have hcode : (65 ≤ c.toNat ∧ c.toNat ≤ 90) ∨ (97 ≤ c.toNat ∧ c.toNat ≤ 122) ∨
      c.toNat = 95 := by
    rcases h with (⟨h1, h2⟩ | ⟨h1, h2⟩) | h1
    · exact Or.inl ⟨h1, h2⟩
    · exact Or.inr (Or.inl ⟨h1, h2⟩)
    · subst h1
      exact Or.inr (Or.inr rfl)
  simp only [jsWhitespace]
  simp only [decide_eq_false_iff_not]
  omega

theorem keyChar_not_ws (c : Char) (h : isKeyChar c = true) :
    jsWhitespace c = false := by
  simp only [isKeyChar, Bool.or_eq_true, Char.isAlphanum, Char.isAlpha,
    Char.isDigit, Char.isUpper, Char.isLower, Bool.or_eq_true,
    Bool.and_eq_true, decide_eq_true_eq, beq_iff_eq] at h
  have hcode : (65 ≤ c.toNat ∧ c.toNat ≤ 90) ∨ (97 ≤ c.toNat ∧ c.toNat ≤ 122) ∨
      (48 ≤ c.toNat ∧ c.toNat ≤ 57) ∨ c.toNat = 95 := by
    rcases h with ((⟨h1, h2⟩ | ⟨h1, h2⟩) | ⟨h1, h2⟩) | h1
    · exact Or.inl ⟨h1, h2⟩
    · exact Or.inr (Or.inl ⟨h1, h2⟩)
    · exact Or.inr (Or.inr (Or.inl ⟨h1, h2⟩))
    · subst h1
      exact Or.inr (Or.inr (Or.inr rfl))
  simp only [jsWhitespace]
  simp only [decide_eq_false_iff_not]
  omega

theorem keyStart_ne_hash (c : Char) (h : isKeyStart c = true) : c ≠ '#' := by
  intro he
  subst he
  simp [isKeyStart] at h

theorem serialize_last_not_ws (v : Str) :
    ∀ c, (serializeEnvValue v).getLast? = some c → jsWhitespace c = false := by
  intro c hc
  unfold serializeEnvValue at hc
  by_cases hv : v = []
  · rw [if_pos hv] at hc
    simp at hc
  · rw [if_neg hv] at hc
    rcases hany : v.any (fun c => jsWhitespace c || c = '#') with _ | _
    · rw [hany] at hc
      simp only [Bool.false_eq_true, if_false] at hc
      simp only [List.any_eq_false] at hany
      have h := hany c (getLast?_mem hc)
      simp only [Bool.or_eq_true, not_or, decide_eq_true_eq] at h
      simpa using h.1
    · rw [hany] at hc
      simp only [if_pos] at hc
      unfold jsonQuote at hc
      rw [show (dq :: v.flatMap jsonEscapeChar ++ [dq] : Str)
          = (dq :: v.flatMap jsonEscapeChar) ++ [dq] from by simp] at hc
      rw [List.getLast?_append_of_ne_nil _ (by simp)] at hc
      simp only [List.getLast?_singleton, Option.some.injEq] at hc
      rw [← hc]
      decide

theorem svAux_no_hash (s : Str) (h : '#' ∉ s) :
    ∀ inS inD esc, svAux s inS inD esc = none := by
  induction s with
  | nil => intro inS inD esc; rfl
  | cons c rest ih =>
      intro inS inD esc
      have hc : c ≠ '#' := fun he => h (he ▸ List.mem_cons_self _ _)
      have hrest : '#' ∉ rest := fun hm => h (List.mem_cons_of_mem _ hm)
      rw [svAux]
      simp [hc, ih hrest]

theorem svAux_step_inD (c : Char) (t : Str) (hbsl : c ≠ bsl) (hdq : c ≠ dq)
    (ht : svAux t false true false = none) :
    svAux (c :: t) false true false = none := by
  rw [svAux]
  simp [hbsl, hdq, ht]

theorem svAux_bsl2 (x : Char) (t : Str)
    (ht : svAux t false true false = none) :
    svAux (bsl :: x :: t) false true false = none := by
  rw [svAux]
  simp [svAux, ht]

theorem hexDigit_ne (n : Nat) (hn : n < 16) :
    hexDigit n ≠ dq ∧ hexDigit n ≠ bsl := by
  revert n
  decide

theorem svAux_unit (c : Char) (t : Str)
    (ht : svAux t false true false = none) :
    svAux (jsonEscapeChar c ++ t) false true false = none := by
  unfold jsonEscapeChar
  by_cases h1 : c = dq
  · rw [if_pos h1]
    exact svAux_bsl2 _ _ ht
  · rw [if_neg h1]
    by_cases h2 : c = bsl
    · rw [if_pos h2]
      exact svAux_bsl2 _ _ ht
    · rw [if_neg h2]
      by_cases h3 : c = '\n'
      · rw [if_pos h3]
        exact svAux_bsl2 _ _ ht
      · rw [if_neg h3]
        by_cases h4 : c = '\r'
        · rw [if_pos h4]
          exact svAux_bsl2 _ _ ht
        · rw [if_neg h4]
          by_cases h5 : c = '\t'
          · rw [if_pos h5]
            exact svAux_bsl2 _ _ ht
          · rw [if_neg h5]
            by_cases h6 : c = '\x08'
            · rw [if_pos h6]
              exact svAux_bsl2 _ _ ht
            · rw [if_neg h6]
              by_cases h7 : c = '\x0c'
              · rw [if_pos h7]
                exact svAux_bsl2 _ _ ht
              · rw [if_neg h7]
                by_cases h8 : c.toNat < 0x20
                · rw [if_pos h8]
                  have e1 := hexDigit_ne (c.toNat % 16) (Nat.mod_lt _ (by omega))
                  have e2 := hexDigit_ne (c.toNat / 16)
                    (by omega)
                  simp only [List.cons_append, List.nil_append]
                  refine svAux_bsl2 'u' _ ?_
                  refine svAux_step_inD _ _ (by decide) (by decide) ?_
                  refine svAux_step_inD _ _ (by decide) (by decide) ?_
                  refine svAux_step_inD _ _ e2.2 e2.1 ?_
                  exact svAux_step_inD _ _ e1.2 e1.1 ht
                · rw [if_neg h8]
                  simp only [List.cons_append, List.nil_append]
                  exact svAux_step_inD _ _ h2 h1 ht

theorem svAux_jsonQuote (v : Str) :
    svAux (jsonQuote v) false false false = none := by
  unfold jsonQuote
  have hbody : svAux (v.flatMap jsonEscapeChar ++ [dq]) false true false
      = none := by
    induction v with
    | nil =>
        simp only [List.flatMap_nil, List.nil_append]
        decide
    | cons c cs ih =>
        rw [List.flatMap_cons, List.append_assoc]
        exact svAux_unit c _ ih
  rw [show (dq :: v.flatMap jsonEscapeChar ++ [dq] : Str)
      = dq :: (v.flatMap jsonEscapeChar ++ [dq]) from by simp]
  rw [svAux]
  simp [hbody, show dq ≠ bsl from by decide, show dq ≠ sq from by decide]

theorem sv_serialize (v : Str) :
    splitValueAndInlineComment (serializeEnvValue v) =
      (serializeEnvValue v, none) := by
  unfold splitValueAndInlineComment
  by_cases hv : v = []
  · subst hv
    decide
  · unfold serializeEnvValue
    rw [if_neg hv]
    rcases hany : v.any (fun c => jsWhitespace c || c = '#') with _ | _
    · simp only [Bool.false_eq_true, if_false]
      have hnh : '#' ∉ v := by
        intro hm
        simp only [List.any_eq_false] at hany
        have := hany '#' hm
        simp at this
      rw [svAux_no_hash v hnh false false false]
    · simp only [if_pos]
      rw [svAux_jsonQuote]

theorem trimLeft_cons_ws (c : Char) (x : Str) (hc : jsWhitespace c = true) :
    trimLeft (c :: x) = trimLeft x := by
  simp [trimLeft, List.dropWhile_cons, hc]

theorem trim_cons_ws (c : Char) (x : Str) (hc : jsWhitespace c = true) :
    trim (c :: x) = trim x := by
  unfold trim
  rw [trimLeft_cons_ws c x hc]

theorem parseStep_blank (st : PState) (n : Nat) (line : Str)
    (h : trim line = []) : parseStep st n line = .ok st := by
  unfold parseStep
  rw [h]
  simp

theorem parseStep_comment (st : PState) (n : Nat) (t : Str)
    (htrim : trim ('@' :: t) = '@' :: t) :
    parseStep st n ('#' :: ' ' :: '@' :: t) =
      match parseDirectiveGroup ('@' :: t) n st.pending with
      | .error e => .error e
      | .ok g =>
          match g.sectionBucket with
          | some b =>
              match g.sectionPfx with
              | some p =>
                  .ok (setPfx
                    { st with
                        activeBucket := some b,
                        pending := emptyDirectives } b p)
              | none =>
                  .ok { st with
                          activeBucket := some b,
                          pending := emptyDirectives }
          | none => .ok { st with pending := g.directives } := by
  have hlast : ∀ c, (('#' :: ' ' :: '@' :: t : Str)).getLast? = some c →
      jsWhitespace c = false := by
    intro c hc
    rw [show ('#' :: ' ' :: '@' :: t : Str) = ['#', ' '] ++ ('@' :: t) from rfl,
      List.getLast?_append_of_ne_nil _ (by simp)] at hc
    exact trim_last_not_ws _ htrim c hc
  have hline : trim ('#' :: ' ' :: '@' :: t) = '#' :: ' ' :: '@' :: t := by
    refine trim_eq_of_ne_ws _ ?_ hlast
    intro c hc
    simp only [List.head?_cons, Option.some.injEq] at hc
    subst hc
    decide
  have hcomment : trim (' ' :: '@' :: t) = '@' :: t := by
    rw [trim_cons_ws ' ' _ (by decide), htrim]
  unfold parseStep
  rw [hline]
  rw [if_neg (by simp)]
  rw [if_pos (show (('#' :: ' ' :: '@' :: t : Str)).head? = some '#' from rfl)]
  rw [show List.drop 1 ('#' :: ' ' :: '@' :: t) = ' ' :: '@' :: t from rfl]
  rw [hcomment]
  rw [if_pos (show (('@' :: t : Str)).head? = some '@' from rfl)]

theorem parseStep_opt (st : PState) (n : Nat) :
    parseStep st n "# @optional".data =
      .ok { st with
              pending := { st.pending with optional := some true } } := rfl

theorem parseStep_noDef (st : PState) (n : Nat) :
    parseStep st n "# @no-default".data =
      .ok { st with
              pending := { st.pending with hasDefault := some false } } := rfl

theorem parseStep_red (st : PState) (n : Nat) :
    parseStep st n "# @redacted".data =
      .ok { st with
              pending := { st.pending with redacted := some true } } := rfl

theorem parseStep_header_bare (st : PState) (n : Nat) (b : Bucket) :
    parseStep st n (headerLine b none) =
      .ok { st with
              activeBucket := some b,
              pending := emptyDirectives } := by
  cases b <;> rfl

theorem parseStep_header_pfx (st : PState) (n : Nat) (b : Bucket) (p : Str)
    (hp : validPfxStr p = true) :
    parseStep st n (headerLine b (some p)) =
      .ok (setPfx
        { st with
            activeBucket := some b,
            pending := emptyDirectives } b p) := by
  have hpne : p ≠ [] := by
    rcases p with _ | _
    · simp [validPfxStr] at hp
    · simp
  have hpws : ∀ c ∈ p, jsWhitespace c = false := by
    intro c hc
    simp only [validPfxStr, Bool.and_eq_true, List.all_eq_true] at hp
    have := hp.2 c hc
    simp only [Bool.and_eq_true] at this
    simpa using this.1
  have hpat : '@' ∉ p := by
    intro hm
    simp only [validPfxStr, Bool.and_eq_true, List.all_eq_true] at hp
    have := hp.2 '@' hm
    simp at this
  have hbat : '@' ∉ bucketName b := by cases b <;> decide
  have hbws : ∀ c ∈ bucketName b, jsWhitespace c = false := by
    cases b <;> decide
  have htrim : trim ('@' :: (bucketName b ++ ' ' :: p))
      = '@' :: (bucketName b ++ ' ' :: p) := by
    refine trim_eq_of_ne_ws _ ?_ ?_
    · intro c hc
      simp only [List.head?_cons, Option.some.injEq] at hc
      subst hc
      decide
    · intro c hc
      rw [show ('@' :: (bucketName b ++ ' ' :: p) : Str)
          = ('@' :: bucketName b ++ [' ']) ++ p from by simp,
        List.getLast?_append_of_ne_nil _ hpne] at hc
      exact hpws c (getLast?_mem hc)
  have hat : '@' ∉ bucketName b ++ ' ' :: p := by
    intro hm
    rcases List.mem_append.mp hm with h | h
    · exact hbat h
    · rcases List.mem_cons.mp h with h | h
      · exact absurd h.symm (by decide)
      · exact hpat h
  have hsplit := splitDirectiveTokens_single _ hat htrim
  have htok := tok_section_pfx b p n hp
  have hgrp := group_of_single ('@' :: (bucketName b ++ ' ' :: p))
    ('@' :: bucketName b ++ ' ' :: p) n st.pending _ hsplit htok
  have hline : headerLine b (some p)
      = '#' :: ' ' :: '@' :: (bucketName b ++ ' ' :: p) := by
    unfold headerLine
    dsimp only
    rw [if_pos hpne]
    simp
  rw [hline, parseStep_comment st n _ htrim, hgrp]
  cases b <;> rfl

theorem parseStep_enum (st : PState) (n : Nat) (vs : List Str)
    (hne : vs ≠ []) (hval : ∀ v ∈ vs, validEnumValue v = true) :
    parseStep st n (enumLine vs) =
      .ok { st with
              pending := { st.pending with
                             type := some SchemaKind.stringEnum,
                             stringEnumValues := some vs } } := by
  have hvne : ∀ v ∈ vs, v ≠ [] := fun v hv => (validEnumValue_props v (hval v hv)).1
  have hvtrim : ∀ v ∈ vs, trim v = v :=
    fun v hv => (validEnumValue_props v (hval v hv)).2.1
  have hjoin_ne : joinComma vs ≠ [] := by
    cases vs with
    | nil => exact absurd rfl hne
    | cons v0 vs2 => exact joinComma_ne_nil v0 vs2 (hvne v0 (List.mem_cons_self _ _))
  have hjlast : ∀ c, (joinComma vs).getLast? = some c → jsWhitespace c = false := by
    intro c hc
    obtain ⟨w, hw, hlast⟩ := getLast?_joinComma vs hne hvne
    rw [hlast] at hc
    exact trim_last_not_ws w (hvtrim w hw) c hc
  have htrim : trim ('@' :: ("type enum ".data ++ joinComma vs))
      = '@' :: ("type enum ".data ++ joinComma vs) := by
    refine trim_eq_of_ne_ws _ ?_ ?_
    · intro c hc
      simp only [List.head?_cons, Option.some.injEq] at hc
      subst hc
      decide
    · intro c hc
      rw [show ('@' :: ("type enum ".data ++ joinComma vs) : Str)
          = ('@' :: "type enum ".data) ++ joinComma vs from by simp,
        List.getLast?_append_of_ne_nil _ hjoin_ne] at hc
      exact hjlast c hc
  have hat : '@' ∉ "type enum ".data ++ joinComma vs := by
    intro hm
    rcases List.mem_append.mp hm with h | h
    · revert h
      decide
    · rcases mem_joinComma vs '@' h with hcm | ⟨w, hw, hcm⟩
      · exact absurd hcm (by decide)
      · exact (validEnumValue_props w (hval w hw)).2.2.2.1 hcm
  have hsplit := splitDirectiveTokens_single _ hat htrim
  have htok := tok_enum vs n hne hval
  have hgrp := group_of_single ('@' :: ("type enum ".data ++ joinComma vs))
    ("@type enum ".data ++ joinComma vs) n st.pending _ hsplit htok
  have hline : enumLine vs
      = '#' :: ' ' :: '@' :: ("type enum ".data ++ joinComma vs) := rfl
  rw [hline, parseStep_comment st n _ htrim, hgrp]
  rfl

theorem matchAssign_eq (c : Char) (kt s : Str) (hstart : isKeyStart c = true)
    (hall : ∀ x ∈ kt, isKeyChar x = true) :
    matchAssign (c :: (kt ++ '=' :: s)) = some (c :: kt, s) := by
  unfold matchAssign
  dsimp only
  rw [if_pos hstart, takeWhile_break kt '=' s isKeyChar hall (by decide),
    List.drop_left, List.dropWhile_cons, if_neg (by decide)]
  rfl

theorem parseStep_assign (st : PState) (n : Nat) (key v : Str)
    (hkey : validKey key = true) :
    parseStep st n (key ++ '=' :: serializeEnvValue v) =
      .ok { st with
              entries := st.entries ++
                [⟨key, reparsedValue v, n, st.activeBucket, st.pending⟩],
              pending := emptyDirectives } := by
  cases key with
  | nil => simp [validKey] at hkey
  | cons c kt =>
      simp only [validKey, Bool.and_eq_true] at hkey
      obtain ⟨hstart, hall⟩ := hkey
      have hallmem : ∀ x ∈ kt, isKeyChar x = true := List.all_eq_true.mp hall
      simp only [List.cons_append]
      have hlast : ∀ x, ((c :: (kt ++ '=' :: serializeEnvValue v) : Str)).getLast?
          = some x → jsWhitespace x = false := by
        intro x hx
        rw [show (c :: (kt ++ '=' :: serializeEnvValue v) : Str)
            = (c :: kt ++ ['=']) ++ serializeEnvValue v from by simp] at hx
        rcases hsv : serializeEnvValue v with _ | ⟨y, ys⟩
        · rw [hsv, List.append_nil,
            List.getLast?_append_of_ne_nil _ (by simp)] at hx
          simp only [List.getLast?_singleton, Option.some.injEq] at hx
          subst hx
          decide
        · rw [hsv, List.getLast?_append_of_ne_nil _ (by simp)] at hx
          rw [← hsv] at hx
          exact serialize_last_not_ws v x hx
      have htrimline : trim (c :: (kt ++ '=' :: serializeEnvValue v))
          = c :: (kt ++ '=' :: serializeEnvValue v) := by
        refine trim_eq_of_ne_ws _ ?_ hlast
        intro x hx
        simp only [List.head?_cons, Option.some.injEq] at hx
        subst hx
        exact keyStart_not_ws c hstart
      unfold parseStep
      rw [htrimline]
      rw [if_neg (by simp)]
      rw [if_neg (show ¬ ((c :: (kt ++ '=' :: serializeEnvValue v) : Str)).head?
            = some '#' by
          simp only [List.head?_cons, Option.some.injEq]
          exact keyStart_ne_hash c hstart)]
      rw [matchAssign_eq c kt (serializeEnvValue v) hstart hallmem]
      dsimp only
      rw [sv_serialize v]
      unfold reparsedValue
      rw [sv_serialize v]

theorem parseLines_nil (st : PState) (n : Nat) :
    parseLinesState st n [] = .ok st := rfl

theorem parseLines_single (st : PState) (n : Nat) (l : Str) (st2 : PState)
    (h : parseStep st n l = .ok st2) (rest : List Str) :
    parseLinesState st n (l :: rest) = parseLinesState st2 (n + 1) rest := by
  rw [parseLinesState, h]

theorem parseLines_blanks (k : Nat) : ∀ st n,
    parseLinesState st n (List.replicate k []) = .ok st := by
  induction k with
  | zero => intro st n; rfl
  | succ k ih =>
      intro st n
      rw [List.replicate_succ,
        parseLines_single st n [] st (parseStep_blank st n [] rfl)]
      exact ih st (n + 1)

theorem parseLines_append_ok (l1 : List Str) : ∀ st n st2 l2,
    parseLinesState st n (l1 ++ l2) = .ok st2 →
    ∃ st1, parseLinesState st n l1 = .ok st1 ∧
      parseLinesState st1 (n + l1.length) l2 = .ok st2 := by
  induction l1 with
  | nil =>
      intro st n st2 l2 h
      exact ⟨st, rfl, by simpa using h⟩
  | cons l ls ih =>
      intro st n st2 l2 h
      rw [List.cons_append, parseLinesState] at h
      rcases hstep : parseStep st n l with e | st1
      · rw [hstep] at h
        simp at h
      · rw [hstep] at h
        obtain ⟨stm, h1, h2⟩ := ih st1 (n + 1) st2 l2 h
        refine ⟨stm, ?_, ?_⟩
        · rw [parseLinesState, hstep]
          exact h1
        · have : n + 1 + ls.length = n + (ls.length + 1) := by omega
          rw [this] at h2
          simpa using h2

theorem dTE_decomp (ls : List Str) :
    ∃ k, ls = dropTrailingEmpties ls ++ List.replicate k [] := by
  refine ⟨(ls.reverse.takeWhile (fun l => l = [])).length, ?_⟩
  have hsplit : ls.reverse.takeWhile (fun l => l = []) ++
      ls.reverse.dropWhile (fun l => l = []) = ls.reverse :=
    List.takeWhile_append_dropWhile _ _
  have htake : ls.reverse.takeWhile (fun l => l = []) =
      List.replicate (ls.reverse.takeWhile (fun l => l = [])).length [] := by
    apply List.eq_replicate_of_mem
    intro x hx
    have := List.mem_takeWhile_imp hx
    simpa using this
  calc ls = ls.reverse.reverse := (List.reverse_reverse ls).symm
    _ = (ls.reverse.takeWhile (fun l => l = []) ++
          ls.reverse.dropWhile (fun l => l = [])).reverse := by rw [hsplit]
    _ = (ls.reverse.dropWhile (fun l => l = [])).reverse ++
          (ls.reverse.takeWhile (fun l => l = [])).reverse := by
        rw [List.reverse_append]
    _ = dropTrailingEmpties ls ++ List.replicate
          (ls.reverse.takeWhile (fun l => l = [])).length [] := by
        rw [dropTrailingEmpties]
        congr 1
        rw [show (ls.reverse.takeWhile (fun l => l = [])).reverse
            = (List.replicate (ls.reverse.takeWhile (fun l => l = [])).length
                ([] : Str)).reverse from by rw [← htake]]
        rw [List.reverse_replicate]

theorem mem_dTE {ls : List Str} {l : Str} (h : l ∈ dropTrailingEmpties ls) :
    l ∈ ls := by
  unfold dropTrailingEmpties at h
  rw [List.mem_reverse] at h
  have := (List.dropWhile_sublist _).mem h
  exact List.mem_reverse.mp this

theorem dTE_ne_nil {ls : List Str} {x : Str} (hx : x ∈ ls) (hne : x ≠ []) :
    dropTrailingEmpties ls ≠ [] := by
  intro hcon
  obtain ⟨k, hk⟩ := dTE_decomp ls
  rw [hcon, List.nil_append] at hk
  rw [hk] at hx
  exact hne (List.eq_of_mem_replicate hx)

theorem parseLines_dTE (ls : List Str) (st : PState) (st2 : PState)
    (h : parseLinesState st 1 ls = .ok st2) :
    parseLinesState st 1 (dropTrailingEmpties ls) = .ok st2 := by
  obtain ⟨k, hk⟩ := dTE_decomp ls
  rw [hk] at h
  obtain ⟨st1, h1, h2⟩ := parseLines_append_ok _ st 1 st2 _ h
  rw [parseLines_blanks k st1 _] at h2
  cases h2
  exact h1

theorem PState_pending_eta (st : PState) (X : Directives)
    (h : st.pending = X) : { st with pending := X } = st := by
  cases st
  cases h
  rfl

theorem parse_enumSeg (st : PState) (n : Nat) (rest : List Str) (d : Directives)
    (hdir : validDirectives d = true) (hp : st.pending = emptyDirectives) :
    ∃ m, parseLinesState st n
        ((match d.type, d.stringEnumValues with
          | some .stringEnum, some vs => [enumLine vs]
          | _, _ => []) ++ rest) =
      parseLinesState
        { st with pending := { emptyDirectives with
            type := (roundDirectives d).type,
            stringEnumValues := (roundDirectives d).stringEnumValues } } m rest := by
  obtain ⟨dt, dopt, dhas, dred, dbuck, dvals⟩ := d
  rcases dt with _ | k
  · rcases dvals with _ | vs <;>
      exact ⟨n, by
        show parseLinesState st n rest =
          parseLinesState { st with pending := emptyDirectives } n rest
        rw [PState_pending_eta st emptyDirectives hp]⟩
  · cases k <;> rcases dvals with _ | vs <;>
      first
        | exact ⟨n, by
            show parseLinesState st n rest =
              parseLinesState { st with pending := emptyDirectives } n rest
            rw [PState_pending_eta st emptyDirectives hp]⟩
        | (simp only [validDirectives, Bool.and_eq_true, List.all_eq_true,
             decide_eq_true_eq] at hdir
           exact ⟨n + 1, by
             show parseLinesState st n (enumLine vs :: rest) =
               parseLinesState { st with pending :=
                 { emptyDirectives with
                     type := some SchemaKind.stringEnum,
                     stringEnumValues := some vs } } (n + 1) rest
             rw [parseLines_single _ _ _ _
               (parseStep_enum st n vs hdir.1 hdir.2), hp]⟩)

theorem parse_flagOpt (st : PState) (n : Nat) (rest : List Str) (o : Option Bool) :
    ∃ m, parseLinesState st n
        ((if o.getD false then ["# @optional".data] else []) ++ rest) =
      parseLinesState
        { st with pending := { st.pending with optional :=
            (if o = some true then some true else st.pending.optional) } } m rest := by
  rcases o with _ | b
  · exact ⟨n, by
      show parseLinesState st n rest =
        parseLinesState { st with pending := st.pending } n rest
      rw [PState_pending_eta st st.pending rfl]⟩
  · cases b
    · exact ⟨n, by
        show parseLinesState st n rest =
          parseLinesState { st with pending := st.pending } n rest
        rw [PState_pending_eta st st.pending rfl]⟩
    · refine ⟨n + 1, ?_⟩
      show parseLinesState st n ("# @optional".data :: rest) =
        parseLinesState
          { st with pending := { st.pending with optional := some true } }
          (n + 1) rest
      rw [parseLines_single _ _ _ _ (parseStep_opt st n)]

theorem parse_flagNoDef (st : PState) (n : Nat) (rest : List Str) (o : Option Bool) :
    ∃ m, parseLinesState st n
        ((if o = some false then ["# @no-default".data] else []) ++ rest) =
      parseLinesState
        { st with pending := { st.pending with hasDefault :=
            (if o = some false then some false else st.pending.hasDefault) } } m rest := by
  rcases o with _ | b
  · exact ⟨n, by
      show parseLinesState st n rest =
        parseLinesState { st with pending := st.pending } n rest
      rw [PState_pending_eta st st.pending rfl]⟩
  · cases b
    · refine ⟨n + 1, ?_⟩
      show parseLinesState st n ("# @no-default".data :: rest) =
        parseLinesState
          { st with pending := { st.pending with hasDefault := some false } }
          (n + 1) rest
      rw [parseLines_single _ _ _ _ (parseStep_noDef st n)]
    · exact ⟨n, by
        show parseLinesState st n rest =
          parseLinesState { st with pending := st.pending } n rest
        rw [PState_pending_eta st st.pending rfl]⟩

theorem parse_flagRed (st : PState) (n : Nat) (rest : List Str) (o : Option Bool) :
    ∃ m, parseLinesState st n
        ((if o.getD false then ["# @redacted".data] else []) ++ rest) =
      parseLinesState
        { st with pending := { st.pending with redacted :=
            (if o = some true then some true else st.pending.redacted) } } m rest := by
  rcases o with _ | b
  · exact ⟨n, by
      show parseLinesState st n rest =
        parseLinesState { st with pending := st.pending } n rest
      rw [PState_pending_eta st st.pending rfl]⟩
  · cases b
    · exact ⟨n, by
        show parseLinesState st n rest =
          parseLinesState { st with pending := st.pending } n rest
        rw [PState_pending_eta st st.pending rfl]⟩
    · refine ⟨n + 1, ?_⟩
      show parseLinesState st n ("# @redacted".data :: rest) =
        parseLinesState
          { st with pending := { st.pending with redacted := some true } }
          (n + 1) rest
      rw [parseLines_single _ _ _ _ (parseStep_red st n)]

theorem parse_entryLines (st : PState) (n : Nat) (rest : List Str) (e : Entry)
    (hkey : validKey e.key = true) (hdir : validDirectives e.directives = true)
    (hp : st.pending = emptyDirectives) :
    ∃ m ln, parseLinesState st n ((entryLines e ++ [[]]) ++ rest) =
      parseLinesState
        { st with
            entries := st.entries ++
              [⟨e.key, reparsedValue e.value, ln, st.activeBucket,
                 roundDirectives e.directives⟩],
            pending := emptyDirectives } m rest := by
  unfold entryLines
  simp only [List.append_assoc, List.cons_append, List.nil_append]
  obtain ⟨m1, h1⟩ := parse_enumSeg st n _ e.directives hdir hp
  rw [h1]
  obtain ⟨m2, h2⟩ := parse_flagOpt _ m1 _ e.directives.optional
  rw [h2]
  obtain ⟨m3, h3⟩ := parse_flagNoDef _ m2 _ e.directives.hasDefault
  rw [h3]
  obtain ⟨m4, h4⟩ := parse_flagRed _ m3 _ e.directives.redacted
  rw [h4]
  rw [parseLines_single _ m4 _ _ (parseStep_assign _ m4 e.key e.value hkey)]
  rw [parseLines_single _ (m4 + 1) _ _ (parseStep_blank _ (m4 + 1) [] rfl)]
  exact ⟨m4 + 1 + 1, m4, rfl⟩

theorem PState_fields_eta (st : PState) (E : List Entry) (X : Directives)
    (hE : st.entries = E) (hX : st.pending = X) :
    ({ st with entries := E, pending := X } : PState) = st := by
  cases st
  cases hE
  cases hX
  rfl

theorem parse_entriesList (es : List Entry) : ∀ st n rest,
    (∀ e ∈ es, validKey e.key = true ∧ validDirectives e.directives = true) →
    st.pending = emptyDirectives →
    ∃ m tail, (parseLinesState st n
        (es.flatMap (fun e => entryLines e ++ [[]]) ++ rest) =
      parseLinesState
        { st with entries := st.entries ++ tail, pending := emptyDirectives }
        m rest) ∧
      tail.map entrySummary =
        es.map (fun e => (e.key, st.activeBucket.getD Bucket.server,
          roundDirectives e.directives)) := by
  induction es with
  | nil =>
      intro st n rest hks hp
      refine ⟨n, [], ?_, rfl⟩
      show parseLinesState st n rest =
        parseLinesState
          { st with entries := st.entries ++ [], pending := emptyDirectives }
          n rest
      rw [PState_fields_eta st _ _ (List.append_nil _).symm hp]
  | cons e es ih =>
      intro st n rest hks hp
      obtain ⟨he, hes⟩ : (validKey e.key = true ∧ validDirectives e.directives = true) ∧
          ∀ x ∈ es, validKey x.key = true ∧ validDirectives x.directives = true :=
        ⟨hks e (List.mem_cons_self _ _), fun x hx => hks x (List.mem_cons_of_mem _ hx)⟩
      obtain ⟨m1, ln, h1⟩ := parse_entryLines st n
        (es.flatMap (fun x => entryLines x ++ [[]]) ++ rest) e he.1 he.2 hp
      obtain ⟨m2, tail2, h2, hsum⟩ := ih
        { st with
            entries := st.entries ++
              [⟨e.key, reparsedValue e.value, ln, st.activeBucket,
                 roundDirectives e.directives⟩],
            pending := emptyDirectives } m1 rest hes rfl
      refine ⟨m2, ⟨e.key, reparsedValue e.value, ln, st.activeBucket,
        roundDirectives e.directives⟩ :: tail2, ?_, ?_⟩
      · rw [List.flatMap_cons, List.append_assoc, h1, h2]
        rw [show (st.entries ++
              [⟨e.key, reparsedValue e.value, ln, st.activeBucket,
                 roundDirectives e.directives⟩]) ++ tail2
            = st.entries ++
                (⟨e.key, reparsedValue e.value, ln, st.activeBucket,
                   roundDirectives e.directives⟩ :: tail2)
          from by rw [List.append_assoc]; rfl]
      · rw [List.map_cons, List.map_cons, hsum]
        rfl

theorem applyHeader_entries (st : PState) (b : Bucket) (o : Option Str) :
    (applyHeader st b o).entries = st.entries := by
  rcases o with _ | p
  · rfl
  · cases b <;> rfl

theorem applyHeader_pending (st : PState) (b : Bucket) (o : Option Str) :
    (applyHeader st b o).pending = emptyDirectives := by
  rcases o with _ | p
  · rfl
  · cases b <;> rfl

theorem applyHeader_activeBucket (st : PState) (b : Bucket) (o : Option Str) :
    (applyHeader st b o).activeBucket = some b := by
  rcases o with _ | p
  · rfl
  · cases b <;> rfl

theorem statePfx_applyHeader_self (st : PState) (b : Bucket) (p : Str) :
    statePfx (applyHeader st b (some p)) b = some p := by
  cases b <;> rfl

theorem statePfx_applyHeader_other (st : PState) (b b2 : Bucket) (o : Option Str)
    (h : b2 ≠ b) : statePfx (applyHeader st b o) b2 = statePfx st b2 := by
  rcases o with _ | p
  · cases b <;> cases b2 <;> rfl
  · cases b <;> cases b2 <;> first | rfl | exact absurd rfl h

theorem statePfx_setEntries (st : PState) (E : List Entry) (X : Directives)
    (b : Bucket) :
    statePfx ({ st with entries := E, pending := X } : PState) b = statePfx st b := by
  cases b <;> rfl

theorem parse_header (st : PState) (n : Nat) (rest : List Str) (b : Bucket)
    (o : Option Str) (ho : ∀ p, o = some p → validPfxStr p = true) :
    parseLinesState st n (headerLine b o :: rest) =
      parseLinesState (applyHeader st b o) (n + 1) rest := by
  rcases o with _ | p
  · rw [parseLines_single _ _ _ _ (parseStep_header_bare st n b)]
    rfl
  · rw [parseLines_single _ _ _ _ (parseStep_header_pfx st n b p (ho p rfl))]
    rfl

theorem parse_block (st : PState) (n : Nat) (rest : List Str)
    (doc : DotenvDocument) (b : Bucket) (sorted : List Entry)
    (hval : ∀ e ∈ sorted, validKey e.key = true ∧ validDirectives e.directives = true)
    (ho : ∀ p, docPfx doc b = some p → validPfxStr p = true) :
    ∃ m tail, (parseLinesState st n (bucketBlock doc b sorted ++ rest) =
        parseLinesState
          { applyHeader st b (docPfx doc b) with
              entries := st.entries ++ tail, pending := emptyDirectives } m rest) ∧
      tail.map entrySummary =
        (sorted.filter (fun e => resolvedBucket e = b)).map expectedSummary := by
  unfold bucketBlock
  simp only [List.cons_append]
  rw [parse_header st n _ b _ ho]
  rw [parseLines_single _ _ _ _ (parseStep_blank _ _ [] rfl)]
  obtain ⟨m, tail, hparse, hsum⟩ :=
    parse_entriesList (sorted.filter (fun e => resolvedBucket e = b))
      (applyHeader st b (docPfx doc b)) (n + 1 + 1) rest
      (fun e he => hval e (List.mem_filter.mp he).1)
      (applyHeader_pending st b _)
  refine ⟨m, tail, ?_, ?_⟩
  · rw [hparse, applyHeader_entries]
  · rw [hsum]
    refine List.map_congr_left ?_
    intro e he
    have hb : resolvedBucket e = b := by
      have := (List.mem_filter.mp he).2
      simpa using this
    rw [applyHeader_activeBucket]
    simp [expectedSummary, hb]

theorem filter_partition_perm (l : List Entry) :
    ((l.filter (fun e => resolvedBucket e = Bucket.server) ++
      l.filter (fun e => resolvedBucket e = Bucket.client)) ++
      l.filter (fun e => resolvedBucket e = Bucket.shared)).Perm l := by
  induction l with
  | nil => simp
  | cons e t ih =>
      have hfil : ∀ b : Bucket, resolvedBucket e = b →
          (e :: t).filter (fun x => resolvedBucket x = b)
            = e :: t.filter (fun x => resolvedBucket x = b) := by
        intro b hb
        simp [List.filter_cons, hb]
      have hfil2 : ∀ b : Bucket, resolvedBucket e ≠ b →
          (e :: t).filter (fun x => resolvedBucket x = b)
            = t.filter (fun x => resolvedBucket x = b) := by
        intro b hb
        simp [List.filter_cons, hb]
      rcases hb : resolvedBucket e with _ | _ | _
      · rw [hfil _ hb, hfil2 _ (by rw [hb]; decide), hfil2 _ (by rw [hb]; decide)]
        exact ih.cons e
      · rw [hfil _ hb, hfil2 _ (by rw [hb]; decide), hfil2 _ (by rw [hb]; decide)]
        rw [List.append_assoc]
        have ih2 : (t.filter (fun x => resolvedBucket x = Bucket.server) ++
            (t.filter (fun x => resolvedBucket x = Bucket.client) ++
              t.filter (fun x => resolvedBucket x = Bucket.shared))).Perm t := by
          rw [← List.append_assoc]
          exact ih
        exact List.Perm.trans List.perm_middle (ih2.cons e)
      · rw [hfil _ hb, hfil2 _ (by rw [hb]; decide), hfil2 _ (by rw [hb]; decide)]
        exact List.Perm.trans List.perm_middle (ih.cons e)

theorem parseLines_append (l1 : List Str) : ∀ st n st1 l2,
    parseLinesState st n l1 = .ok st1 →
    parseLinesState st n (l1 ++ l2) = parseLinesState st1 (n + l1.length) l2 := by
  induction l1 with
  | nil =>
      intro st n st1 l2 h
      rw [parseLines_nil] at h
      cases h
      simp
  | cons l ls ih =>
      intro st n st1 l2 h
      rw [parseLinesState] at h
      rcases hstep : parseStep st n l with e | st'
      · rw [hstep] at h
        simp at h
      · rw [hstep] at h
        rw [List.cons_append, parseLines_single st n l st' hstep, ih st' (n + 1) st1 l2 h]
        have : n + 1 + ls.length = n + (l :: ls).length := by simp; omega
        rw [this]

theorem hexDigit_nl (k : Nat) (hk : k < 16) :
    hexDigit k ≠ '\n' ∧ hexDigit k ≠ '\r' := by
  revert k
  decide

theorem jsonEscapeChar_chars (c x : Char) (hx : x ∈ jsonEscapeChar c) :
    x ≠ '\n' ∧ x ≠ '\r' := by
  unfold jsonEscapeChar at hx
  by_cases h1 : c = dq
  · rw [if_pos h1] at hx
    exact (by decide : ∀ y ∈ ([bsl, dq] : Str), y ≠ '\n' ∧ y ≠ '\r') x hx
  · rw [if_neg h1] at hx
    by_cases h2 : c = bsl
    · rw [if_pos h2] at hx
      exact (by decide : ∀ y ∈ ([bsl, bsl] : Str), y ≠ '\n' ∧ y ≠ '\r') x hx
    · rw [if_neg h2] at hx
      by_cases h3 : c = '\n'
      · rw [if_pos h3] at hx
        exact (by decide : ∀ y ∈ ([bsl, 'n'] : Str), y ≠ '\n' ∧ y ≠ '\r') x hx
      · rw [if_neg h3] at hx
        by_cases h4 : c = '\r'
        · rw [if_pos h4] at hx
          exact (by decide : ∀ y ∈ ([bsl, 'r'] : Str), y ≠ '\n' ∧ y ≠ '\r') x hx
        · rw [if_neg h4] at hx
          by_cases h5 : c = '\t'
          · rw [if_pos h5] at hx
            exact (by decide : ∀ y ∈ ([bsl, 't'] : Str), y ≠ '\n' ∧ y ≠ '\r') x hx
          · rw [if_neg h5] at hx
            by_cases h6 : c = '\x08'
            · rw [if_pos h6] at hx
              exact (by decide : ∀ y ∈ ([bsl, 'b'] : Str), y ≠ '\n' ∧ y ≠ '\r') x hx
            · rw [if_neg h6] at hx
              by_cases h7 : c = '\x0c'
              · rw [if_pos h7] at hx
                exact (by decide : ∀ y ∈ ([bsl, 'f'] : Str), y ≠ '\n' ∧ y ≠ '\r') x hx
              · rw [if_neg h7] at hx
                by_cases h8 : c.toNat < 0x20
                · rw [if_pos h8] at hx
                  simp only [List.mem_cons, List.not_mem_nil, or_false] at hx
                  rcases hx with hx | hx | hx | hx | hx | hx <;> subst hx
                  · decide
                  · decide
                  · decide
                  · decide
                  · exact hexDigit_nl _ (by omega)
                  · exact hexDigit_nl _ (Nat.mod_lt _ (by omega))
                · rw [if_neg h8] at hx
                  simp only [List.mem_singleton] at hx
                  subst hx
                  exact ⟨h3, h4⟩

theorem serialize_no_nl (v : Str) :
    ∀ c ∈ serializeEnvValue v, c ≠ '\n' ∧ c ≠ '\r' := by
  intro c hc
  unfold serializeEnvValue at hc
  split at hc
  · simp at hc
  · split at hc
    · unfold jsonQuote at hc
      rcases List.mem_cons.mp hc with hq | hq
      · subst hq; decide
      · rcases List.mem_append.mp hq with hq | hq
        · obtain ⟨y, _, hy⟩ := List.mem_flatMap.mp hq
          exact jsonEscapeChar_chars y c hy
        · simp only [List.mem_singleton] at hq
          subst hq; decide
    · rename_i hany
      have hws : jsWhitespace c = false := by
        rcases hw : jsWhitespace c with _ | _
        · rfl
        · exact absurd (List.any_eq_true.mpr ⟨c, hc, by rw [hw]; rfl⟩) hany
      constructor
      · intro he; subst he; exact absurd hws (by decide)
      · intro he; subst he; exact absurd hws (by decide)

theorem validKey_no_nl (k : Str) (hk : validKey k = true) :
    ∀ c ∈ k, c ≠ '\n' ∧ c ≠ '\r' := by
  cases k with
  | nil => intro c hc; simp at hc
  | cons c0 rest =>
      intro c hc
      simp only [validKey, Bool.and_eq_true, List.all_eq_true] at hk
      have hws : jsWhitespace c = false := by
        rcases List.mem_cons.mp hc with h | h
        · subst h; exact keyStart_not_ws c hk.1
        · exact keyChar_not_ws c (hk.2 c h)
      constructor
      · intro he; subst he; exact absurd hws (by decide)
      · intro he; subst he; exact absurd hws (by decide)

theorem validDoc_entries {doc : DotenvDocument} (hv : validDoc doc = true) :
    ∀ e ∈ doc.entries, validKey e.key = true ∧ validDirectives e.directives = true := by
  intro e he
  simp only [validDoc, Bool.and_eq_true, List.all_eq_true] at hv
  have := hv.1 e he
  simpa using this

theorem validDoc_pfx {doc : DotenvDocument} (hv : validDoc doc = true) :
    ∀ b p, docPfx doc b = some p → validPfxStr p = true := by
  intro b p hbp
  obtain ⟨ents, pfxo⟩ := doc
  unfold docPfx at hbp
  unfold validDoc at hv
  rcases pfxo with _ | m
  · simp at hbp
  · simp only [Option.some_bind] at hbp
    simp only [Bool.and_eq_true] at hv
    obtain ⟨⟨hS, hC⟩, hSh⟩ := hv.2
    cases b
    · have hbp2 : m.server = some p := hbp
      rw [hbp2] at hS
      exact hS
    · have hbp2 : m.client = some p := hbp
      rw [hbp2] at hC
      exact hC
    · have hbp2 : m.shared = some p := hbp
      rw [hbp2] at hSh
      exact hSh

theorem sortEntries_mem {es : List Entry} {e : Entry} (h : e ∈ sortEntries es) :
    e ∈ es := (stableSortBy_perm entryLe es).mem_iff.mp h

theorem joinComma_no_nl (vs : List Str)
    (hval : ∀ v ∈ vs, validEnumValue v = true) :
    ∀ c ∈ joinComma vs, c ≠ '\n' ∧ c ≠ '\r' := by
  intro c hc
  rcases mem_joinComma vs c hc with h | ⟨w, hw, hcm⟩
  · subst h; decide
  · have := validEnumValue_props w (hval w hw)
    exact ⟨fun he => this.2.2.2.2.1 (he ▸ hcm), fun he => this.2.2.2.2.2 (he ▸ hcm)⟩

theorem entryLines_no_nl (e : Entry) (hkey : validKey e.key = true)
    (hdir : validDirectives e.directives = true) :
    ∀ l ∈ entryLines e, ∀ c ∈ l, c ≠ '\n' ∧ c ≠ '\r' := by
  intro l hl c hc
  unfold entryLines at hl
  simp only [List.mem_append] at hl
  rcases hl with (((h1 | h2) | h3) | h4) | h5
  · split at h1
    · rename_i vs heq1 heq2
      simp only [List.mem_singleton] at h1
      subst h1
      unfold enumLine at hc
      rcases List.mem_append.mp hc with h | h
      · exact (by decide : ∀ y ∈ ("# @type enum ".data : Str),
          y ≠ '\n' ∧ y ≠ '\r') c h
      · have hval : ∀ v ∈ vs, validEnumValue v = true := by
          unfold validDirectives at hdir
          rw [heq1, heq2] at hdir
          simp only [Bool.and_eq_true, List.all_eq_true] at hdir
          exact hdir.2
        exact joinComma_no_nl vs hval c h
    · simp at h1
  · split at h2
    · simp only [List.mem_singleton] at h2
      subst h2
      exact (by decide : ∀ y ∈ ("# @optional".data : Str),
        y ≠ '\n' ∧ y ≠ '\r') c hc
    · simp at h2
  · split at h3
    · simp only [List.mem_singleton] at h3
      subst h3
      exact (by decide : ∀ y ∈ ("# @no-default".data : Str),
        y ≠ '\n' ∧ y ≠ '\r') c hc
    · simp at h3
  · split at h4
    · simp only [List.mem_singleton] at h4
      subst h4
      exact (by decide : ∀ y ∈ ("# @redacted".data : Str),
        y ≠ '\n' ∧ y ≠ '\r') c hc
    · simp at h4
  · simp only [List.mem_singleton] at h5
    subst h5
    rcases List.mem_append.mp hc with h | h
    · exact validKey_no_nl e.key hkey c h
    · rcases List.mem_cons.mp h with h | h
      · subst h; decide
      · exact serialize_no_nl e.value c h

theorem headerLine_no_nl (b : Bucket) (o : Option Str)
    (ho : ∀ p, o = some p → validPfxStr p = true) :
    ∀ c ∈ headerLine b o, c ≠ '\n' ∧ c ≠ '\r' := by
  intro c hc
  have hbare : c ∈ ("# @".data ++ bucketName b : Str) → c ≠ '\n' ∧ c ≠ '\r' := by
    cases b
    · exact (by decide : ∀ y ∈ ("# @".data ++ bucketName Bucket.server : Str),
        y ≠ '\n' ∧ y ≠ '\r') c
    · exact (by decide : ∀ y ∈ ("# @".data ++ bucketName Bucket.client : Str),
        y ≠ '\n' ∧ y ≠ '\r') c
    · exact (by decide : ∀ y ∈ ("# @".data ++ bucketName Bucket.shared : Str),
        y ≠ '\n' ∧ y ≠ '\r') c
  unfold headerLine at hc
  rcases o with _ | p
  · exact hbare hc
  · dsimp only at hc
    by_cases hp : (p ≠ [])
    · rw [if_pos hp] at hc
      rcases List.mem_append.mp hc with h | h
      · exact hbare h
      · rcases List.mem_cons.mp h with h3 | h3
        · subst h3; decide
        · have hpv := ho p rfl
          simp only [validPfxStr, Bool.and_eq_true, List.all_eq_true] at hpv
          have := hpv.2 c h3
          simp only [Bool.and_eq_true, Bool.not_eq_true'] at this
          constructor
          · intro he; subst he; exact absurd this.1 (by decide)
          · intro he; subst he; exact absurd this.1 (by decide)
    · rw [if_neg hp] at hc
      exact hbare hc

theorem headerLine_ne_nil (b : Bucket) (o : Option Str) : headerLine b o ≠ [] := by
  unfold headerLine
  rcases o with _ | p
  · cases b <;> simp
  · dsimp only
    split <;> cases b <;> simp

theorem encodeLines_no_nl (doc : DotenvDocument) (hv : validDoc doc = true) :
    ∀ l ∈ encodeLines doc, ∀ c ∈ l, c ≠ '\n' ∧ c ≠ '\r' := by
  intro l hl
  unfold encodeLines at hl
  have hblock : ∀ b : Bucket, l ∈ bucketBlock doc b (sortEntries doc.entries) →
      ∀ c ∈ l, c ≠ '\n' ∧ c ≠ '\r' := by
    intro b hb
    unfold bucketBlock at hb
    rcases List.mem_cons.mp hb with h | h
    · subst h
      exact headerLine_no_nl b (docPfx doc b) (fun p hp => validDoc_pfx hv b p hp)
    · rcases List.mem_cons.mp h with h | h
      · subst h; intro c hc; simp at hc
      · obtain ⟨e, he, hle⟩ := List.mem_flatMap.mp h
        have hev := validDoc_entries hv e
          (sortEntries_mem (List.mem_filter.mp he).1)
        rcases List.mem_append.mp hle with h | h
        · exact entryLines_no_nl e hev.1 hev.2 l h
        · simp only [List.mem_singleton] at h
          subst h
          intro c hc
          simp at hc
  rcases List.mem_append.mp hl with h | h
  · rcases List.mem_append.mp h with h | h
    · exact hblock .server h
    · exact hblock .client h
  · exact hblock .shared h

theorem parse_encodeLines (doc : DotenvDocument) (hv : validDoc doc = true) :
    ∃ stf, (parseLinesState initState 1 (encodeLines doc) = .ok stf) ∧
      (stf.entries.map entrySummary).Perm (doc.entries.map expectedSummary) ∧
      ∀ b p, docPfx doc b = some p → statePfx stf b = some p := by
  have hval : ∀ e ∈ sortEntries doc.entries,
      validKey e.key = true ∧ validDirectives e.directives = true :=
    fun e he => validDoc_entries hv e (sortEntries_mem he)
  obtain ⟨m1, t1, h1, hs1⟩ := parse_block initState 1
    (bucketBlock doc Bucket.client (sortEntries doc.entries) ++
      bucketBlock doc Bucket.shared (sortEntries doc.entries))
    doc Bucket.server (sortEntries doc.entries) hval (validDoc_pfx hv Bucket.server)
  obtain ⟨m2, t2, h2, hs2⟩ := parse_block
    { applyHeader initState Bucket.server (docPfx doc Bucket.server) with
        entries := initState.entries ++ t1, pending := emptyDirectives } m1
    (bucketBlock doc Bucket.shared (sortEntries doc.entries))
    doc Bucket.client (sortEntries doc.entries) hval (validDoc_pfx hv Bucket.client)
  obtain ⟨m3, t3, h3, hs3⟩ := parse_block
    { applyHeader { applyHeader initState Bucket.server (docPfx doc Bucket.server) with
        entries := initState.entries ++ t1, pending := emptyDirectives } Bucket.client (docPfx doc Bucket.client) with
        entries := ({ applyHeader initState Bucket.server (docPfx doc Bucket.server) with
        entries := initState.entries ++ t1, pending := emptyDirectives }).entries ++ t2, pending := emptyDirectives } m2
    [] doc Bucket.shared (sortEntries doc.entries) hval (validDoc_pfx hv Bucket.shared)
  have hfin : parseLinesState initState 1 (encodeLines doc) =
      .ok { applyHeader { applyHeader { applyHeader initState Bucket.server (docPfx doc Bucket.server) with
        entries := initState.entries ++ t1, pending := emptyDirectives } Bucket.client (docPfx doc Bucket.client) with
        entries := ({ applyHeader initState Bucket.server (docPfx doc Bucket.server) with
        entries := initState.entries ++ t1, pending := emptyDirectives }).entries ++ t2, pending := emptyDirectives } Bucket.shared (docPfx doc Bucket.shared) with
        entries := ({ applyHeader { applyHeader initState Bucket.server (docPfx doc Bucket.server) with
        entries := initState.entries ++ t1, pending := emptyDirectives } Bucket.client (docPfx doc Bucket.client) with
        entries := ({ applyHeader initState Bucket.server (docPfx doc Bucket.server) with
        entries := initState.entries ++ t1, pending := emptyDirectives }).entries ++ t2, pending := emptyDirectives }).entries ++ t3, pending := emptyDirectives } := by
    rw [show encodeLines doc
        = bucketBlock doc Bucket.server (sortEntries doc.entries) ++
            bucketBlock doc Bucket.client (sortEntries doc.entries) ++
            bucketBlock doc Bucket.shared (sortEntries doc.entries) from rfl]
    rw [List.append_assoc, h1, h2]
    rw [show bucketBlock doc Bucket.shared (sortEntries doc.entries)
        = bucketBlock doc Bucket.shared (sortEntries doc.entries) ++ []
      from (List.append_nil _).symm]
    rw [h3]
    exact parseLines_nil _ _
  refine ⟨_, hfin, ?_, ?_⟩
  · show (((t1 ++ t2) ++ t3).map entrySummary).Perm (doc.entries.map expectedSummary)
    rw [List.map_append, List.map_append, hs1, hs2, hs3]
    rw [← List.map_append, ← List.map_append]
    exact ((filter_partition_perm (sortEntries doc.entries)).map expectedSummary).trans
      ((stableSortBy_perm entryLe doc.entries).map expectedSummary)
  · intro b p hbp
    cases b
    · rw [statePfx_setEntries, statePfx_applyHeader_other _ _ _ _ (by decide),
        statePfx_setEntries, statePfx_applyHeader_other _ _ _ _ (by decide),
        statePfx_setEntries, hbp, statePfx_applyHeader_self]
    · rw [statePfx_setEntries, statePfx_applyHeader_other _ _ _ _ (by decide),
        statePfx_setEntries, hbp, statePfx_applyHeader_self]
    · rw [statePfx_setEntries, hbp, statePfx_applyHeader_self]

theorem docPfx_finishDoc (st : PState) (b : Bucket) (p : Str)
    (h : statePfx st b = some p) (hp : p ≠ []) :
    docPfx (finishDoc st) b = some p := by
  cases b
  · have h2 : st.pfxServer = some p := h
    unfold finishDoc docPfx
    dsimp only
    rw [h2]
    simp [hp, pfxGet]
  · have h2 : st.pfxClient = some p := h
    unfold finishDoc docPfx
    dsimp only
    rw [h2]
    simp [hp, pfxGet]
  · have h2 : st.pfxShared = some p := h
    unfold finishDoc docPfx
    dsimp only
    rw [h2]
    simp [hp, pfxGet]

/-- C1: for every valid dotenv document, re-parsing the serialized text
succeeds and preserves, for each entry (up to the reordering induced by
bucket grouping), its key, its resolved bucket and the directive set that
the serializer re-emits (`roundDirectives`: the enum type with its values,
optional, no-default and redacted markers), and preserves every prefix
entry present in the document. -/
theorem claim_C1 (doc : DotenvDocument) (hv : validDoc doc = true) :
    ∃ doc2, parseDotenvText (stringifyDotenvDocument doc) = .ok doc2 ∧
      (doc2.entries.map entrySummary).Perm (doc.entries.map expectedSummary) ∧
      ∀ b p, docPfx doc b = some p → docPfx doc2 b = some p := by
  obtain ⟨stf, hok, hperm, hpfx⟩ := parse_encodeLines doc hv
  have hnn : ∀ l ∈ dropTrailingEmpties (encodeLines doc), ∀ c ∈ l,
      c ≠ '\n' ∧ c ≠ '\r' :=
    fun l hl => encodeLines_no_nl doc hv l (mem_dTE hl)
  have hmem : headerLine Bucket.server (docPfx doc Bucket.server)
      ∈ encodeLines doc := by
    unfold encodeLines bucketBlock
    exact List.mem_append.mpr (Or.inl (List.mem_append.mpr
      (Or.inl (List.mem_cons_self _ _))))
  have hne := dTE_ne_nil hmem (headerLine_ne_nil _ _)
  have hsplit := splitLines_join (dropTrailingEmpties (encodeLines doc)) hne hnn
  have hdte : parseLinesState initState 1 (dropTrailingEmpties (encodeLines doc))
      = .ok stf := parseLines_dTE _ _ _ hok
  have hfull : parseLinesState initState 1
      (dropTrailingEmpties (encodeLines doc) ++ [[]]) = .ok stf := by
    rw [parseLines_append _ _ _ _ _ hdte]
    rw [parseLines_single _ _ _ _ (parseStep_blank _ _ [] rfl)]
    exact parseLines_nil _ _
  refine ⟨finishDoc stf, ?_, hperm, ?_⟩
  · unfold parseDotenvText stringifyDotenvDocument
    rw [hsplit, hfull]
    rfl
  · intro b p hbp
    have hpv := validDoc_pfx hv b p hbp
    have hpne : p ≠ [] := by
      rcases p with _ | _
      · simp [validPfxStr] at hpv
      · simp
    exact docPfx_finishDoc stf b p (hpfx b p hbp) hpne

/-- C1 counterexample: the literal claim that every directive survives the
round trip fails for an explicit non-enum `@type` directive (here
`@type port`): the serializer emits a type line only for
stringEnum-with-values directives, so the reparsed entry carries no type
directive at all. -/
theorem claim_C1_counterexample :
    validDoc cDocC1 = true ∧
    parseDotenvText (stringifyDotenvDocument cDocC1) =
      .ok ⟨[⟨"PORT".data, "3000".data, 3, some Bucket.server,
              emptyDirectives⟩], none⟩ ∧
    cDocC1.entries.map (fun e => e.directives.type) = [some SchemaKind.port] := by
  refine ⟨by decide, by rfl, rfl⟩

/-- C1 witness: the round-trip theorem applied to a concrete valid
document carrying an enum type with values, optional, no-default and
redacted markers, and two prefixes. -/
theorem claim_C1_witness :
    validDoc cDocC1W = true ∧
    (∃ doc2, parseDotenvText (stringifyDotenvDocument cDocC1W) = .ok doc2 ∧
      (doc2.entries.map entrySummary).Perm (cDocC1W.entries.map expectedSummary) ∧
      ∀ b p, docPfx cDocC1W b = some p → docPfx doc2 b = some p) :=
  ⟨by decide, claim_C1 cDocC1W (by decide)⟩

end Codec

end Envil
